import Mathlib

/-!
Shallow embedding of the k-in-row game engine in `src/src/mainTest_Rushi.py`:
the `Board` class, the `TicTacToe` game rules, the exhaustive minimax search
`minimax_search_tt` (with its hash registry), the fail-soft alpha-beta search
`h_alphabeta_search`, and the window heuristic `heuristic_5x5_tictactoe`.

Modelling conventions:
* Python marks `'X'`/`'O'` become the inductive type `Mark`.
* A Python `dict` of cells becomes an association list `List (Coord × Mark)`
  in insertion order; `dict.update` is replace-first-occurrence insertion,
  which matches `dict` semantics (a Python dict never holds a duplicate key,
  and updating an existing key keeps its position).
* Python `float('inf')` / ints mixing in search values becomes the extended
  integer type `EV` with `negInf`, `fin n`, `posInf`.
* Python `set` iteration (over `game.actions`) is given the canonical
  row-major order; the source order is unspecified.
* The unbounded `while` loop in `count_in_row` and the recursive searches are
  given explicit fuel; sufficiency of the canonical fuel is proved, so the
  top-level wrappers take no fuel argument, like the source functions.
* `functools.lru_cache` memoises a function whose key (the registry hash) is
  injective on the boards explored within one search call, so the cached
  search is value-equal to the uncached recursion; `minimax_search_tt` is
  embedded as the plain recursion, and the global `_state_registry`
  indirection is embedded separately (`mmr`) with the registry threaded
  explicitly, for the claims about the registry.
-/

/-- The two marks `'X'` and `'O'`. -/
inductive Mark where
  | X : Mark
  | O : Mark
deriving DecidableEq, Repr

/-- `'O' if player == 'X' else 'X'` (the to-move flip in `TicTacToe.result`). -/
def flipMark (p : Mark) : Mark :=
  if p = Mark.X then Mark.O else Mark.X

/-- Grid coordinates, as in the Python `(x, y)` integer pairs. -/
abbrev Coord := Int × Int

/-- What a `board[(x, y)]` access yields: a mark, `board.empty` (`'.'`) for an
in-range unoccupied cell, or `board.off` (`'#'`) for an out-of-range cell. -/
inductive Cell where
  | mark : Mark → Cell
  | empty : Cell
  | off : Cell
deriving DecidableEq, Repr

/-- First-match lookup in an association list of cells (Python dict lookup). -/
def lookupCells : List (Coord × Mark) → Coord → Option Mark
  | [], _ => none
  | (c', m) :: rest, c => if c' = c then some m else lookupCells rest c

/-- Replace-first-occurrence insertion (Python `dict.update` with one key:
an existing key keeps its position, a new key is appended). -/
def insertCell : List (Coord × Mark) → Coord → Mark → List (Coord × Mark)
  | [], c, v => [(c, v)]
  | (c', v') :: rest, c, v =>
      if c' = c then (c, v) :: rest else (c', v') :: insertCell rest c v

/-- The keys of an association list of cells (Python `board.keys()`). -/
def keysOf (l : List (Coord × Mark)) : List Coord :=
  l.map Prod.fst

/-- Search values: the Python searches mix ints (utilities, heuristic scores)
with the `float('inf')` sentinels `-infinity` / `+infinity`. -/
inductive EV where
  | negInf : EV
  | fin : Int → EV
  | posInf : EV
deriving DecidableEq, Repr

namespace EV

/-- Boolean comparison on `EV`, mirroring Python `<=` on ints and infinities. -/
def ble : EV → EV → Bool
  | negInf, _ => true
  | _, posInf => true
  | fin a, fin b => decide (a ≤ b)
  | _, _ => false

instance : LinearOrder EV where
  le a b := ble a b = true
  lt a b := ble b a = false
  le_refl a := by cases a <;> simp [ble]
  le_trans a b c hab hbc := by
    cases a <;> cases b <;> cases c <;> simp_all [ble] <;> omega
  le_antisymm a b hab hba := by
    cases a <;> cases b <;> simp_all [ble] <;> omega
  le_total a b := by
    cases a <;> cases b <;> simp [ble] <;> omega
  lt_iff_le_not_le a b := by
    cases a <;> cases b <;> simp [ble] <;> omega
  decidableLE a b := inferInstanceAs (Decidable (ble a b = true))
  decidableLT a b := inferInstanceAs (Decidable (ble b a = false))
  decidableEq := inferInstance

instance (a b : EV) : Decidable (a ≤ b) := LinearOrder.decidableLE a b

instance (a b : EV) : Decidable (a < b) := LinearOrder.decidableLT a b

/-- Python `max(a, b)`: returns `a` if `a >= b`, else `b`. -/
def pymax (a b : EV) : EV := if b ≤ a then a else b

/-- Python `min(a, b)`: returns `a` if `a <= b`, else `b`. -/
def pymin (a b : EV) : EV := if a ≤ b then a else b

end EV

/-- The Python `Board`: a dict of placed marks plus metadata. `k?` models the
optional `k` attribute (`if 'k' in kwds: self.k = kwds['k']`). -/
structure Board where
  width : Nat
  height : Nat
  to_move : Mark
  utility : Int
  k? : Option Nat
  cells : List (Coord × Mark)
deriving DecidableEq, Repr

namespace Board

/-- Dict membership and lookup, `board[(x, y)]` restricted to stored keys. -/
def get? (b : Board) (c : Coord) : Option Mark :=
  lookupCells b.cells c

/-- `board[(x, y)]` with the `__missing__` fallback: `board.empty` (`'.'`) in
range, `board.off` (`'#'`) outside. -/
def getCell (b : Board) (c : Coord) : Cell :=
  match lookupCells b.cells c with
  | some m => Cell.mark m
  | none =>
      if 0 ≤ c.1 ∧ c.1 < (b.width : Int) ∧ 0 ≤ c.2 ∧ c.2 < (b.height : Int) then
        Cell.empty
      else Cell.off

/-- `Board.new`: copy the board, apply `changes`, take `to_move` / `utility`
from the keyword arguments when given, and carry `k` over when present. -/
def new (b : Board) (changes : List (Coord × Mark)) (tm? : Option Mark)
    (ut? : Option Int) : Board :=
  { width := b.width, height := b.height,
    to_move := tm?.getD b.to_move,
    utility := ut?.getD b.utility,
    k? := b.k?,
    cells := changes.foldl (fun cs cm => insertCell cs cm.1 cm.2) b.cells }

/-- The tuple hashed by `Board.__hash__`: `(tuple(sorted(self.items())),
self.to_move, self.utility)`. The sorted tuple of a dict's items is
determined by, and determines, the multiset of items, so the canonical key
is that multiset together with `to_move` and `utility`. -/
def hashKey (b : Board) : Multiset (Coord × Mark) × Mark × Int :=
  ((b.cells : Multiset (Coord × Mark)), b.to_move, b.utility)

end Board

/-- The while loop `count_in_row` inside `k_in_row`, with explicit fuel:
count contiguous cells holding `p`'s mark starting at `(x, y)` and stepping
by `(dx, dy)`. -/
def count_in_row (b : Board) (p : Mark) : Nat → Int → Int → Int → Int → Nat
  | 0, _, _, _, _ => 0
  | fuel+1, x, y, dx, dy =>
      if b.get? (x, y) = some p then
        count_in_row b p fuel (x + dx) (y + dy) dx dy + 1
      else 0

/-- The four axis directions scanned by `k_in_row`. -/
def kDirections : List (Int × Int) := [(0, 1), (1, 0), (1, 1), (1, -1)]

/-- `k_in_row(board, player, square, k)`: true if `player` has `k` pieces in a
line through `square`. Fuel `board.cells.length + 1` is sufficient for the
while loop because the walk visits pairwise distinct occupied cells. -/
def k_in_row (b : Board) (p : Mark) (square : Coord) (k : Nat) : Bool :=
  kDirections.any fun d =>
    (k : Int) ≤
      (count_in_row b p (b.cells.length + 1) square.1 square.2 d.1 d.2 : Int) +
      (count_in_row b p (b.cells.length + 1) square.1 square.2 (-d.1) (-d.2) : Int)
      - 1

/-- The `TicTacToe` game: a `width × height` board needing `k` in a row. -/
structure TicTacToe where
  height : Nat
  width : Nat
  k : Nat
deriving DecidableEq, Repr

namespace TicTacToe

/-- `self.squares`, a Python set; given here in a fixed canonical order (the
Python set iteration order is unspecified). -/
def squaresList (g : TicTacToe) : List Coord :=
  (List.range g.width).flatMap fun x =>
    (List.range g.height).map fun (y : Nat) => ((x : Int), (y : Int))

/-- `self.initial`: empty board, `X` to move, `utility=0`, `k` stored. -/
def initial (g : TicTacToe) : Board :=
  { width := g.width, height := g.height, to_move := Mark.X, utility := 0,
    k? := some g.k, cells := [] }

/-- `actions(board)`: any square not yet taken. -/
def actions (g : TicTacToe) (b : Board) : List Coord :=
  g.squaresList.filter fun c => (lookupCells b.cells c).isNone

/-- `result(board, square)`: place the current player's mark, flip the mover,
evaluate the win through the placed square, set `utility`, store `k`. -/
def result (g : TicTacToe) (b : Board) (square : Coord) : Board :=
  let player := b.to_move
  let nb := b.new [(square, player)] (some (flipMark player)) none
  let win := k_in_row nb player square g.k
  { nb with
      utility := if win then (if player = Mark.X then 1 else -1) else 0,
      k? := some g.k }

/-- `utility(board, player)`. -/
def utility (_g : TicTacToe) (b : Board) (p : Mark) : Int :=
  if p = Mark.X then b.utility else -b.utility

/-- `is_terminal(board)`: nonzero utility, or as many stored cells as there
are squares. -/
def is_terminal (g : TicTacToe) (b : Board) : Bool :=
  b.utility != 0 || g.squaresList.length == b.cells.length

/-- Number of unoccupied squares; the canonical search fuel. -/
def freeCount (g : TicTacToe) (b : Board) : Nat :=
  (g.actions b).length

end TicTacToe

/-- Python `range(a, b)` as a list of `Int` (empty when `b <= a`). -/
def pyRange (a b : Int) : List Int :=
  (List.range (b - a).toNat).map fun i => a + (i : Int)

/-- The per-window score of `heuristic_5x5_tictactoe`: `+10**pc` when the
window holds only the player's marks (and empties), `-10**oc` when it holds
only the opponent's. -/
def line_score (_b : Board) (p : Mark) (line : List Cell) : Int :=
  let opponent := if p = Mark.O then Mark.X else Mark.O
  let pc := line.count (Cell.mark p)
  let oc := line.count (Cell.mark opponent)
  (if oc = 0 ∧ 0 < pc then (10 : Int) ^ pc else 0) +
    (if pc = 0 ∧ 0 < oc then -((10 : Int) ^ oc) else 0)

/-- The `k`-length windows scanned by `heuristic_5x5_tictactoe`, in source
order: all rows, all columns, all down-right diagonals, all down-left
anti-diagonals, with `size = board.width` and
`k = board.k if hasattr(board, 'k') else size`. -/
def windowsOf (st : Board) : List (List Cell) :=
  let size : Int := st.width
  let k : Int := (st.k?.getD st.width : Nat)
  ((pyRange 0 size).flatMap fun r => (pyRange 0 (size - k + 1)).map fun c =>
    (pyRange 0 k).map fun i => st.getCell (c + i, r)) ++
  ((pyRange 0 size).flatMap fun c => (pyRange 0 (size - k + 1)).map fun r =>
    (pyRange 0 k).map fun i => st.getCell (c, r + i)) ++
  ((pyRange 0 (size - k + 1)).flatMap fun r => (pyRange 0 (size - k + 1)).map fun c =>
    (pyRange 0 k).map fun i => st.getCell (c + i, r + i)) ++
  ((pyRange 0 (size - k + 1)).flatMap fun r => (pyRange (k - 1) size).map fun c =>
    (pyRange 0 k).map fun i => st.getCell (c - i, r + i))

/-- `heuristic_5x5_tictactoe(state, player)`: `total_score` accumulates
`line_score` over the four window groups sequentially, which is the sum of
`line_score` over the concatenated window list. -/
def heuristic_5x5_tictactoe (st : Board) (p : Mark) : Int :=
  ((windowsOf st).map (line_score st p)).sum

/-- The `for` loop of `minimax_search_tt.max_value`: keep the first strictly
improving action. -/
def mmLoopMax (cv : Coord → EV) : List Coord → EV → Option Coord → EV × Option Coord
  | [], v, move => (v, move)
  | a :: as, v, move =>
      if v < cv a then mmLoopMax cv as (cv a) (some a) else mmLoopMax cv as v move

/-- The `for` loop of `minimax_search_tt.min_value`. -/
def mmLoopMin (cv : Coord → EV) : List Coord → EV → Option Coord → EV × Option Coord
  | [], v, move => (v, move)
  | a :: as, v, move =>
      if cv a < v then mmLoopMin cv as (cv a) (some a) else mmLoopMin cv as v move

/-- `minimax_search_tt`'s mutually recursive `max_value` / `min_value` as one
function on a `maxing` flag (the two roles alternate each ply), with fuel. -/
def mm (g : TicTacToe) (root : Mark) : Nat → Bool → Board → EV × Option Coord
  | 0, _, _ => (EV.negInf, none)
  | fuel+1, maxing, s =>
      if g.is_terminal s then (EV.fin (g.utility s root), none)
      else if maxing then
        mmLoopMax (fun a => (mm g root fuel false (g.result s a)).1) (g.actions s)
          EV.negInf none
      else
        mmLoopMin (fun a => (mm g root fuel true (g.result s a)).1) (g.actions s)
          EV.posInf none

/-- `minimax_search_tt(game, state)`: fix `player = state.to_move`, run
`max_value` at the root. The canonical fuel `freeCount + 1` is sufficient
since each ply fills one free square. -/
def minimax_search_tt (g : TicTacToe) (s : Board) : EV × Option Coord :=
  mm g s.to_move (g.freeCount s + 1) true s

/-- The `for` loop of `h_alphabeta_search.max_value`: on strict improvement
update `(v, move)` and raise `alpha`; return as soon as `v >= beta`. -/
def abLoopMax (cv : Coord → EV → EV) (beta : EV) :
    List Coord → EV → Option Coord → EV → EV × Option Coord
  | [], v, move, _ => (v, move)
  | a :: as, v, move, alpha =>
      let v2 := cv a alpha
      if v < v2 then
        if beta ≤ v2 then (v2, some a)
        else abLoopMax cv beta as v2 (some a) (EV.pymax alpha v2)
      else
        if beta ≤ v then (v, move)
        else abLoopMax cv beta as v move alpha

/-- The `for` loop of `h_alphabeta_search.min_value`. -/
def abLoopMin (cv : Coord → EV → EV) (alpha : EV) :
    List Coord → EV → Option Coord → EV → EV × Option Coord
  | [], v, move, _ => (v, move)
  | a :: as, v, move, beta =>
      let v2 := cv a beta
      if v2 < v then
        if v2 ≤ alpha then (v2, some a)
        else abLoopMin cv alpha as v2 (some a) (EV.pymin beta v2)
      else
        if v ≤ alpha then (v, move)
        else abLoopMin cv alpha as v move beta

/-- `h_alphabeta_search`'s `max_value` / `min_value` as one `maxing`-flagged
function: terminal test, cutoff test with heuristic leaf value, then the
pruned loop, with fuel. -/
def ab (g : TicTacToe) (root : Mark) (cutoff : TicTacToe → Board → Nat → Bool)
    (h : Board → Mark → Int) :
    Nat → Bool → Board → EV → EV → Nat → EV × Option Coord
  | 0, _, _, _, _, _ => (EV.negInf, none)
  | fuel+1, maxing, s, alpha, beta, depth =>
      if g.is_terminal s then (EV.fin (g.utility s root), none)
      else if cutoff g s depth then (EV.fin (h s root), none)
      else if maxing then
        abLoopMax
          (fun a al => (ab g root cutoff h fuel false (g.result s a) al beta (depth + 1)).1)
          beta (g.actions s) EV.negInf none alpha
      else
        abLoopMin
          (fun a be => (ab g root cutoff h fuel true (g.result s a) alpha be (depth + 1)).1)
          alpha (g.actions s) EV.posInf none beta

/-- `cutoff_depth(d)`: stop when `depth > d`. -/
def cutoff_depth (d : Nat) : TicTacToe → Board → Nat → Bool :=
  fun _ _ depth => d < depth

/-- `h_alphabeta_search(game, state, cutoff, h)`: root player `state.to_move`,
window `(-infinity, +infinity)`, depth `0`. -/
def h_alphabeta_search (g : TicTacToe) (s : Board)
    (cutoff : TicTacToe → Board → Nat → Bool) (h : Board → Mark → Int) :
    EV × Option Coord :=
  ab g s.to_move cutoff h (g.freeCount s + 1) true s EV.negInf EV.posInf 0

/-- The key type of the `_state_registry` dict: the tuple `Board.__hash__`
hashes. -/
abbrev HKey := Multiset (Coord × Mark) × Mark × Int

/-- The `_state_registry` dict, most recent store first. -/
abbrev Registry := List (HKey × Board)

/-- `hash_state(state)`: compute the key, register the state under it, and
return the key (the updated registry is returned explicitly because the
Python registry is a mutable global). -/
def hash_state (reg : Registry) (s : Board) : HKey × Registry :=
  (s.hashKey, (s.hashKey, s) :: reg)

/-- `state_from_hash(h)`: `_state_registry[h]`; `none` is the `KeyError`
miss. -/
def state_from_hash (reg : Registry) (hk : HKey) : Option Board :=
  (reg.find? fun e => decide (e.1 = hk)).map Prod.snd

/-- The loop of the registry-threaded minimax: hash each child (storing it),
recurse through the registry, fold as in `mm`. `none` is an unrecoverable
`KeyError` miss (or fuel exhaustion). -/
def mmrLoop (g : TicTacToe) (s : Board) (maxing : Bool)
    (next : Registry → HKey → Option ((EV × Option Coord) × Registry)) :
    List Coord → EV → Option Coord → Registry →
      Option ((EV × Option Coord) × Registry)
  | [], v, move, reg => some ((v, move), reg)
  | a :: as, v, move, reg =>
      let child := g.result s a
      let hr := hash_state reg child
      match next hr.2 hr.1 with
      | none => none
      | some ((v2, _), reg2) =>
          if maxing then
            if v < v2 then mmrLoop g s maxing next as v2 (some a) reg2
            else mmrLoop g s maxing next as v move reg2
          else
            if v2 < v then mmrLoop g s maxing next as v2 (some a) reg2
            else mmrLoop g s maxing next as v move reg2

/-- `minimax_search_tt` with the `_state_registry` indirection explicit:
every recursive call receives a hash key and looks the state back up. -/
def mmr (g : TicTacToe) (root : Mark) :
    Nat → Bool → Registry → HKey → Option ((EV × Option Coord) × Registry)
  | 0, _, _, _ => none
  | fuel+1, maxing, reg, hk =>
      match state_from_hash reg hk with
      | none => none
      | some s =>
          if g.is_terminal s then some ((EV.fin (g.utility s root), none), reg)
          else
            mmrLoop g s maxing (mmr g root fuel (!maxing)) (g.actions s)
              (if maxing then EV.negInf else EV.posInf) none reg

/-- Top level of the registry-threaded search: `max_value(hash_state(state))`
with `player = state.to_move`. -/
def minimax_search_tt_reg (g : TicTacToe) (s : Board) (reg : Registry) :
    Option ((EV × Option Coord) × Registry) :=
  let hr := hash_state reg s
  mmr g s.to_move (g.freeCount s + 1) true hr.2 hr.1

/-- Specification-side backward-induction value (claim C2's wording): at a
terminal state the utility for the root player; otherwise the maximum of the
children's values when the root player is the role on move, the minimum
otherwise. -/
def bgValue (g : TicTacToe) (root : Mark) : Nat → Board → EV
  | 0, _ => EV.negInf
  | fuel+1, s =>
      if g.is_terminal s then EV.fin (g.utility s root)
      else if s.to_move = root then
        ((g.actions s).map fun a => bgValue g root fuel (g.result s a)).foldl max EV.negInf
      else
        ((g.actions s).map fun a => bgValue g root fuel (g.result s a)).foldl min EV.posInf

/-- Boards reachable from the initial board by legal moves. -/
inductive Reachable (g : TicTacToe) : Board → Prop
  | init : Reachable g g.initial
  | step {b : Board} {a : Coord} : Reachable g b → a ∈ g.actions b →
      Reachable g (g.result b a)

/-- `StepsTo g e s u`: board `u` is reached from `s` by exactly `e` legal
moves. These are (a superset of) the nodes a search started at `s` can visit,
and `e` is the `depth` argument at which `h_alphabeta_search` visits `u`. -/
def StepsTo (g : TicTacToe) : Nat → Board → Board → Prop
  | 0, s, u => u = s
  | e+1, s, u => ∃ a ∈ g.actions s, StepsTo g e (g.result s a) u

/-- Specification-side run description (claim C3): starting at `(x, y)` and
stepping by `(dx, dy)`, the first `n` cells hold `p`'s mark and the next one
does not. -/
def runSpec (b : Board) (p : Mark) (x y dx dy : Int) (n : Nat) : Prop :=
  (∀ i : Nat, i < n → b.get? (x + (i : Int) * dx, y + (i : Int) * dy) = some p) ∧
    b.get? (x + (n : Int) * dx, y + (n : Int) * dy) ≠ some p

/-- Specification-side `k_in_row` condition (claim C3): along some axis the
forward run length plus the backward run length, minus one (the square is
counted twice), reaches `k`. -/
def kRowSpec (b : Board) (p : Mark) (square : Coord) (k : Nat) : Prop :=
  ∃ d ∈ kDirections, ∃ cf cb : Nat,
    runSpec b p square.1 square.2 d.1 d.2 cf ∧
    runSpec b p square.1 square.2 (-d.1) (-d.2) cb ∧
    (k : Int) ≤ (cf : Int) + (cb : Int) - 1

/-- 1×1 game with `k = 1` (the only move wins), for witnesses. -/
def game1 : TicTacToe := ⟨1, 1, 1⟩

/-- 2×1 game with `k = 1` (either move wins), for the fail-soft witness. -/
def game21 : TicTacToe := { height := 1, width := 2, k := 1 }

/-- 2×2 game with `k = 2`, for witnesses. -/
def game2 : TicTacToe := ⟨2, 2, 2⟩

/-- 3×3 game with `k = 3`, for counterexamples. -/
def game3 : TicTacToe := ⟨3, 3, 3⟩

/-- A cutoff predicate that never fires. -/
def cutoffNever : TicTacToe → Board → Nat → Bool := fun _ _ _ => false

/-- A cutoff predicate that always fires. -/
def cutoffAlways : TicTacToe → Board → Nat → Bool := fun _ _ _ => true

/-- The default heuristic `lambda s, p: 0`. -/
def hZero : Board → Mark → Int := fun _ _ => 0

/-- A heuristic returning `7`, to tell heuristic leaf values apart. -/
def hSeven : Board → Mark → Int := fun _ _ => 7

/-- An empty 3×3 board with cached utility `0` (C5 counterexample). -/
def boardU0 : Board :=
  { width := 3, height := 3, to_move := Mark.X, utility := 0, k? := none, cells := [] }

/-- Same mark assignment and active player as `boardU0`, utility `1`. -/
def boardU1 : Board :=
  { width := 3, height := 3, to_move := Mark.X, utility := 1, k? := none, cells := [] }

/-- An empty 3×3 board carrying `k = 2` (C10 counterexample). -/
def boardK2 : Board :=
  { width := 3, height := 3, to_move := Mark.X, utility := 0, k? := some 2, cells := [] }

/-- A 2×2 board whose dict lists `X@(0,0)` then `O@(1,0)` (C5 witness). -/
def boardPerm1 : Board :=
  { width := 2, height := 2, to_move := Mark.X, utility := 0, k? := none,
    cells := [(((0 : Int), (0 : Int)), Mark.X), (((1 : Int), (0 : Int)), Mark.O)] }

/-- The same mapping as `boardPerm1` with the opposite insertion order. -/
def boardPerm2 : Board :=
  { width := 2, height := 2, to_move := Mark.X, utility := 0, k? := none,
    cells := [(((1 : Int), (0 : Int)), Mark.O), (((0 : Int), (0 : Int)), Mark.X)] }

/-!
Theorems. First the helper lemmas about the embedded operations, then one
theorem per claim (with witnesses and counterexamples where required).
-/

theorem flipMark_flipMark (p : Mark) : flipMark (flipMark p) = p := by
  cases p <;> rfl

theorem flipMark_ne (p : Mark) : flipMark p ≠ p := by
  cases p <;> simp [flipMark]

theorem lookupCells_insertCell (l : List (Coord × Mark)) (c : Coord) (v : Mark)
    (c' : Coord) :
    lookupCells (insertCell l c v) c' =
      if c = c' then some v else lookupCells l c' := by
  induction l with
  | nil => simp [insertCell, lookupCells]
  | cons hd tl ih =>
      obtain ⟨ch, mh⟩ := hd
      by_cases h1 : ch = c
      · subst h1
        simp only [insertCell, if_pos rfl, lookupCells]
        by_cases h2 : ch = c' <;> simp [h2]
      · simp only [insertCell, if_neg h1, lookupCells]
        by_cases h2 : ch = c'
        · subst h2
          have : ¬ c = ch := fun h => h1 h.symm
          simp [this]
        · simp [h2, ih]

theorem mem_of_lookupCells (l : List (Coord × Mark)) (c : Coord) (m : Mark)
    (h : lookupCells l c = some m) : (c, m) ∈ l := by
  induction l with
  | nil => simp [lookupCells] at h
  | cons hd tl ih =>
      obtain ⟨ch, mh⟩ := hd
      by_cases hc : ch = c
      · subst hc
        simp [lookupCells] at h
        subst h
        exact List.mem_cons_self _ _
      · simp only [lookupCells, if_neg hc] at h
        exact List.mem_cons_of_mem _ (ih h)

theorem lookupCells_isSome_iff (l : List (Coord × Mark)) (c : Coord) :
    (lookupCells l c).isSome = true ↔ c ∈ keysOf l := by
  induction l with
  | nil => simp [lookupCells, keysOf]
  | cons hd tl ih =>
      obtain ⟨ch, mh⟩ := hd
      by_cases hc : ch = c
      · subst hc
        simp [lookupCells, keysOf]
      · have : ¬ c = ch := fun h => hc h.symm
        simp [lookupCells, keysOf, hc, this, ih, keysOf]

theorem keysOf_insertCell (l : List (Coord × Mark)) (c : Coord) (v : Mark) :
    keysOf (insertCell l c v) =
      if c ∈ keysOf l then keysOf l else keysOf l ++ [c] := by
  induction l with
  | nil => simp [insertCell, keysOf]
  | cons hd tl ih =>
      obtain ⟨ch, mh⟩ := hd
      by_cases hc : ch = c
      · subst hc
        simp [insertCell, keysOf]
      · have hne : ¬ c = ch := fun h => hc h.symm
        simp only [insertCell, if_neg hc, keysOf, List.map_cons, List.mem_cons]
        simp only [keysOf] at ih
        by_cases hmem : c ∈ tl.map Prod.fst
        · simp [hmem, hne, ih]
        · simp [hmem, hne, ih]

namespace EV

@[simp] theorem negInf_le (a : EV) : negInf ≤ a := by
  show ble negInf a = true
  cases a <;> rfl

@[simp] theorem le_posInf (a : EV) : a ≤ posInf := by
  show ble a posInf = true
  cases a <;> rfl

@[simp] theorem fin_le_fin {a b : Int} : (fin a ≤ fin b) ↔ a ≤ b := by
  show decide (a ≤ b) = true ↔ a ≤ b
  simp

@[simp] theorem fin_lt_fin {a b : Int} : (fin a < fin b) ↔ a < b := by
  show decide (b ≤ a) = false ↔ a < b
  simp [Int.not_le]

@[simp] theorem negInf_lt_fin (a : Int) : negInf < fin a := by
  show ble (fin a) negInf = false
  rfl

@[simp] theorem negInf_lt_posInf : negInf < posInf := by
  show ble posInf negInf = false
  rfl

@[simp] theorem fin_lt_posInf (a : Int) : fin a < posInf := by
  show ble posInf (fin a) = false
  rfl

@[simp] theorem le_negInf_iff (a : EV) : a ≤ negInf ↔ a = negInf := by
  cases a <;> simp [show ∀ b, (b ≤ negInf) = (ble b negInf = true) from fun _ => rfl, ble]

@[simp] theorem posInf_le_iff (a : EV) : posInf ≤ a ↔ a = posInf := by
  cases a <;> simp [show ∀ b, (posInf ≤ b) = (ble posInf b = true) from fun _ => rfl, ble]

@[simp] theorem not_lt_negInf (a : EV) : ¬ a < negInf := by
  simp [not_lt]

@[simp] theorem not_posInf_lt (a : EV) : ¬ posInf < a := by
  simp [not_lt]

theorem pymax_eq_max (a b : EV) : pymax a b = max a b := by
  rw [pymax, max_def]
  rcases le_total a b with h | h
  · rcases eq_or_lt_of_le h with rfl | hlt
    · simp
    · rw [if_neg (not_le.mpr hlt), if_pos h]
  · rw [if_pos h]
    rcases eq_or_lt_of_le h with rfl | hlt
    · simp
    · rw [if_neg (not_le.mpr hlt)]

theorem pymin_eq_min (a b : EV) : pymin a b = min a b := by
  rw [pymin, min_def]

end EV

theorem sum_map_neg {α : Type} (l : List α) (f g : α → Int)
    (h : ∀ a ∈ l, f a = -(g a)) : (l.map f).sum = -((l.map g).sum) := by
  induction l with
  | nil => simp
  | cons a as ih =>
      simp only [List.map_cons, List.sum_cons]
      rw [h a (List.mem_cons_self a as), ih fun x hx => h x (List.mem_cons_of_mem _ hx)]
      ring

theorem score_core_swap (u v : Nat) :
    ((if v = 0 ∧ 0 < u then (10 : Int) ^ u else 0) +
      (if u = 0 ∧ 0 < v then -((10 : Int) ^ v) else 0)) =
    -(((if u = 0 ∧ 0 < v then (10 : Int) ^ v else 0) +
      (if v = 0 ∧ 0 < u then -((10 : Int) ^ u) else 0))) := by
  split_ifs <;> ring

theorem line_score_swap (b : Board) (p : Mark) (line : List Cell) :
    line_score b (flipMark p) line = -(line_score b p line) := by
  cases p
  · exact score_core_swap (line.count (Cell.mark Mark.O)) (line.count (Cell.mark Mark.X))
  · exact score_core_swap (line.count (Cell.mark Mark.X)) (line.count (Cell.mark Mark.O))

theorem heuristic_5x5_swap (b : Board) (p : Mark) :
    heuristic_5x5_tictactoe b (flipMark p) = -(heuristic_5x5_tictactoe b p) := by
  unfold heuristic_5x5_tictactoe
  exact sum_map_neg _ _ _ fun w _ => line_score_swap b p w

/-- C7: for every board, `heuristic_5x5_tictactoe(b, 'X')` is the exact
negation of `heuristic_5x5_tictactoe(b, 'O')`: swapping the player and
opponent roles and recomputing on the same board negates the total window
score. -/
theorem C7_heuristic_antisymmetric (b : Board) :
    heuristic_5x5_tictactoe b Mark.X = -(heuristic_5x5_tictactoe b Mark.O) := by
  simpa [flipMark] using heuristic_5x5_swap b Mark.O

theorem result_get? (g : TicTacToe) (b : Board) (m : Coord) (c : Coord) :
    (g.result b m).get? c = if m = c then some b.to_move else b.get? c := by
  show lookupCells (g.result b m).cells c = _
  have hc : (g.result b m).cells = insertCell b.cells m b.to_move := by
    simp [TicTacToe.result, Board.new]
  rw [hc, lookupCells_insertCell]
  rfl

/-- C6 counterexample: the claim says a `result` call on an occupied square
fails with `InvalidMoveError`; in fact no error exists and the mark is
silently replaced: after `X` plays the origin, a second `result` on the same
square returns a board whose origin now holds `O`. -/
theorem C6_counterexample_silent_overwrite :
    (game3.result (game3.result game3.initial (0, 0)) (0, 0)).get? (0, 0) =
        some Mark.O ∧
      (game3.result game3.initial (0, 0)).get? (0, 0) = some Mark.X := by
  constructor <;> decide

/-- C6 amended: `result` never fails on an occupied or out-of-bounds move:
for every move it places the (previous) active player's mark at the move,
overwriting whatever was there, and flips the active player. -/
theorem C6_amended_result_overwrites (g : TicTacToe) (b : Board) (m : Coord) :
    (g.result b m).get? m = some b.to_move ∧
      (g.result b m).to_move = flipMark b.to_move := by
  constructor
  · rw [result_get?]
    simp
  · simp [TicTacToe.result, Board.new]

/-- C10 counterexample: `result` does not preserve the board's win length:
`new_board.k = self.k` stores the game's `k` (here `3`), clobbering the
board's stored `k = 2`. -/
theorem C10_counterexample_k_overwritten :
    (game3.result boardK2 (0, 0)).k? ≠ boardK2.k? := by decide

/-- C10 amended: `result(b, m)` preserves width and height; it flips the
active player, stores the game's win length `k` (which equals `b`'s stored
`k` whenever `b` carries the same game's `k`), places the previous active
player's mark at `m`, and leaves every other cell unchanged (with the cached
utility recomputed). -/
theorem C10_amended_result_frame (g : TicTacToe) (b : Board) (m : Coord) :
    (g.result b m).width = b.width ∧ (g.result b m).height = b.height ∧
      (g.result b m).to_move = flipMark b.to_move ∧
      (g.result b m).k? = some g.k ∧
      (g.result b m).get? m = some b.to_move ∧
      ∀ c : Coord, c ≠ m → (g.result b m).get? c = b.get? c := by
  refine ⟨by simp [TicTacToe.result, Board.new], by simp [TicTacToe.result, Board.new],
    by simp [TicTacToe.result, Board.new], by simp [TicTacToe.result],
    by rw [result_get?]; simp, fun c hc => ?_⟩
  rw [result_get?, if_neg fun h => hc h.symm]

/-- C10 amended witness at a concrete input. -/
theorem C10_amended_witness :
    (game3.result boardK2 (0, 0)).get? (1, 1) = boardK2.get? (1, 1) :=
  (C10_amended_result_frame game3 boardK2 (0, 0)).2.2.2.2.2 (1, 1) (by decide)

theorem lookupCells_eq_some_iff (l : List (Coord × Mark))
    (hnd : (keysOf l).Nodup) (c : Coord) (m : Mark) :
    lookupCells l c = some m ↔ (c, m) ∈ l := by
  constructor
  · exact mem_of_lookupCells l c m
  · intro hmem
    induction l with
    | nil => simp at hmem
    | cons hd tl ih =>
        obtain ⟨ch, mh⟩ := hd
        simp only [keysOf, List.map_cons, List.nodup_cons] at hnd
        rcases List.mem_cons.mp hmem with heq | htl
        · obtain ⟨h1, h2⟩ := Prod.mk.injEq .. ▸ heq
          injection heq with e1 e2
          subst e1
          subst e2
          simp [lookupCells]
        · have hne : ch ≠ c := by
            intro hcc
            subst hcc
            exact hnd.1 (List.mem_map.mpr ⟨(ch, m), htl, rfl⟩)
          simp only [lookupCells, if_neg hne]
          exact ih hnd.2 htl

/-- C5 counterexample: two boards with identical mark assignment (both empty)
and identical active player but different cached utility receive different
`Board.__hash__` keys, because the hashed tuple includes `self.utility`. -/
theorem C5_counterexample_utility_in_key :
    boardU0.cells = boardU1.cells ∧ boardU0.to_move = boardU1.to_move ∧
      boardU0.hashKey ≠ boardU1.hashKey := by
  refine ⟨rfl, rfl, ?_⟩
  decide

/-- C5 amended: the memoization key of a board is determined by its
occupied-cell mapping, its active player, and its cached utility (the hashed
tuple includes `self.utility`, so utility equality must be assumed as well):
boards agreeing on all three get identical keys regardless of dict insertion
order. -/
theorem C5_amended_key_determined (b1 b2 : Board)
    (hmap : ∀ c : Coord, lookupCells b1.cells c = lookupCells b2.cells c)
    (hnd1 : (keysOf b1.cells).Nodup) (hnd2 : (keysOf b2.cells).Nodup)
    (htm : b1.to_move = b2.to_move) (hut : b1.utility = b2.utility) :
    b1.hashKey = b2.hashKey := by
  have hperm : b1.cells.Perm b2.cells := by
    refine (List.perm_ext_iff_of_nodup (hnd1.of_map _) (hnd2.of_map _)).mpr ?_
    rintro ⟨c, m⟩
    rw [← lookupCells_eq_some_iff b1.cells hnd1 c m,
      ← lookupCells_eq_some_iff b2.cells hnd2 c m, hmap c]
  show (_, _, _) = (_, _, _)
  rw [htm, hut, Multiset.coe_eq_coe.mpr hperm]

/-- C5 amended witness: the same mapping stored in two different orders. -/
theorem C5_amended_witness : boardPerm1.hashKey = boardPerm2.hashKey := by
  refine C5_amended_key_determined boardPerm1 boardPerm2 ?_ (by decide) (by decide) rfl rfl
  intro c
  by_cases h1 : c = (((0 : Int), (0 : Int)) : Coord)
  · subst h1
    decide
  · by_cases h2 : c = (((1 : Int), (0 : Int)) : Coord)
    · subst h2
      decide
    · have e1 : ¬ (((0 : Int), (0 : Int)) : Coord) = c := fun h => h1 h.symm
      have e2 : ¬ (((1 : Int), (0 : Int)) : Coord) = c := fun h => h2 h.symm
      simp [boardPerm1, boardPerm2, lookupCells, e1, e2]

theorem walk_shift (x y dx dy : Int) (j : Nat) :
    ((x + ((j + 1 : Nat) : Int) * dx, y + ((j + 1 : Nat) : Int) * dy) : Coord) =
      (x + dx + (j : Int) * dx, y + dy + (j : Int) * dy) := by
  simp only [Prod.mk.injEq]
  constructor <;> push_cast <;> ring

theorem count_in_row_stepRun (b : Board) (p : Mark) :
    ∀ (fuel : Nat) (x y dx dy : Int) (i : Nat),
      i < count_in_row b p fuel x y dx dy →
      b.get? (x + (i : Int) * dx, y + (i : Int) * dy) = some p := by
  intro fuel
  induction fuel with
  | zero =>
      intro x y dx dy i hi
      simp [count_in_row] at hi
  | succ fuel ih =>
      intro x y dx dy i hi
      simp only [count_in_row] at hi
      by_cases hxy : b.get? (x, y) = some p
      · rw [if_pos hxy] at hi
        cases i with
        | zero => simpa using hxy
        | succ j =>
            have hj : j < count_in_row b p fuel (x + dx) (y + dy) dx dy := by omega
            have h2 := ih (x + dx) (y + dy) dx dy j hj
            rw [walk_shift]
            exact h2
      · rw [if_neg hxy] at hi
        omega

theorem walk_inj (x y dx dy : Int) (hd : ¬ (dx = 0 ∧ dy = 0)) :
    Function.Injective fun i : Nat => ((x + (i : Int) * dx, y + (i : Int) * dy) : Coord) := by
  intro i j hij
  simp only [Prod.mk.injEq] at hij
  obtain ⟨h1, h2⟩ := hij
  have e1 : (i : Int) * dx = (j : Int) * dx := by omega
  have e2 : (i : Int) * dy = (j : Int) * dy := by omega
  rcases not_and_or.mp hd with hdx | hdy
  · have : (i : Int) = j := mul_right_cancel₀ hdx e1
    exact_mod_cast this
  · have : (i : Int) = j := mul_right_cancel₀ hdy e2
    exact_mod_cast this

theorem count_in_row_le_length (b : Board) (p : Mark) (x y dx dy : Int)
    (hd : ¬ (dx = 0 ∧ dy = 0)) (fuel : Nat) :
    count_in_row b p fuel x y dx dy ≤ b.cells.length := by
  set n := count_in_row b p fuel x y dx dy with hn
  have hmem : ∀ i : Fin n, ((x + (i : Int) * dx, y + (i : Int) * dy), p) ∈ b.cells :=
    fun i => mem_of_lookupCells _ _ _ (count_in_row_stepRun b p fuel x y dx dy i i.2)
  have hinj : Function.Injective
      fun i : Fin n => (((x + (i : Int) * dx, y + (i : Int) * dy), p) : Coord × Mark) := by
    intro i j hij
    have hcoord : ((x + ((i : Nat) : Int) * dx, y + ((i : Nat) : Int) * dy) : Coord) =
        (x + ((j : Nat) : Int) * dx, y + ((j : Nat) : Int) * dy) := congrArg Prod.fst hij
    exact Fin.ext (walk_inj x y dx dy hd hcoord)
  have himg : (Finset.univ.image
      fun i : Fin n => (((x + (i : Int) * dx, y + (i : Int) * dy), p) : Coord × Mark)) ⊆
      b.cells.toFinset := by
    intro z hz
    rcases Finset.mem_image.mp hz with ⟨i, _, rfl⟩
    exact List.mem_toFinset.mpr (hmem i)
  have hcard := Finset.card_le_card himg
  rw [Finset.card_image_of_injective _ hinj, Finset.card_univ, Fintype.card_fin] at hcard
  exact le_trans hcard (List.toFinset_card_le _)

theorem count_in_row_runSpec (b : Board) (p : Mark) :
    ∀ (fuel : Nat) (x y dx dy : Int),
      count_in_row b p fuel x y dx dy < fuel →
      runSpec b p x y dx dy (count_in_row b p fuel x y dx dy) := by
  intro fuel
  induction fuel with
  | zero => intro x y dx dy h; omega
  | succ fuel ih =>
      intro x y dx dy hlt
      by_cases hxy : b.get? (x, y) = some p
      · have hcount : count_in_row b p (fuel + 1) x y dx dy =
            count_in_row b p fuel (x + dx) (y + dy) dx dy + 1 := by
          simp only [count_in_row, if_pos hxy]
        rw [hcount] at hlt ⊢
        have hspec := ih (x + dx) (y + dy) dx dy (by omega)
        constructor
        · intro i hi
          cases i with
          | zero => simpa using hxy
          | succ j =>
              rw [walk_shift]
              exact hspec.1 j (by omega)
        · rw [walk_shift]
          exact hspec.2
      · have hcount : count_in_row b p (fuel + 1) x y dx dy = 0 := by
          simp only [count_in_row, if_neg hxy]
        rw [hcount]
        exact ⟨fun i hi => absurd hi (by omega), by simpa using hxy⟩

theorem runSpec_unique (b : Board) (p : Mark) (x y dx dy : Int) (n m : Nat)
    (hn : runSpec b p x y dx dy n) (hm : runSpec b p x y dx dy m) : n = m := by
  by_contra hne
  rcases Nat.lt_or_ge n m with h | h
  · exact hn.2 (hm.1 n h)
  · exact hm.2 (hn.1 m (by omega))

theorem kDirections_nonzero :
    ∀ d ∈ kDirections, ¬ (d.1 = 0 ∧ d.2 = 0) ∧ ¬ (-d.1 = 0 ∧ -d.2 = 0) := by
  decide

theorem k_in_row_iff_kRowSpec (b : Board) (p : Mark) (sq : Coord) (k : Nat) :
    k_in_row b p sq k = true ↔ kRowSpec b p sq k := by
  rw [k_in_row, List.any_eq_true]
  constructor
  · rintro ⟨d, hd, hle⟩
    rw [decide_eq_true_eq] at hle
    obtain ⟨hd1, hd2⟩ := kDirections_nonzero d hd
    refine ⟨d, hd, count_in_row b p (b.cells.length + 1) sq.1 sq.2 d.1 d.2,
      count_in_row b p (b.cells.length + 1) sq.1 sq.2 (-d.1) (-d.2), ?_, ?_, hle⟩
    · exact count_in_row_runSpec b p (b.cells.length + 1) sq.1 sq.2 d.1 d.2
        (by have := count_in_row_le_length b p sq.1 sq.2 d.1 d.2 hd1 (b.cells.length + 1); omega)
    · exact count_in_row_runSpec b p (b.cells.length + 1) sq.1 sq.2 (-d.1) (-d.2)
        (by have := count_in_row_le_length b p sq.1 sq.2 (-d.1) (-d.2) hd2 (b.cells.length + 1); omega)
  · rintro ⟨d, hd, cf, cb, hf, hb, hle⟩
    obtain ⟨hd1, hd2⟩ := kDirections_nonzero d hd
    refine ⟨d, hd, ?_⟩
    rw [decide_eq_true_eq]
    have hcf : count_in_row b p (b.cells.length + 1) sq.1 sq.2 d.1 d.2 = cf :=
      runSpec_unique b p sq.1 sq.2 d.1 d.2 _ cf
        (count_in_row_runSpec b p (b.cells.length + 1) sq.1 sq.2 d.1 d.2
          (by have := count_in_row_le_length b p sq.1 sq.2 d.1 d.2 hd1 (b.cells.length + 1); omega))
        hf
    have hcb : count_in_row b p (b.cells.length + 1) sq.1 sq.2 (-d.1) (-d.2) = cb :=
      runSpec_unique b p sq.1 sq.2 (-d.1) (-d.2) _ cb
        (count_in_row_runSpec b p (b.cells.length + 1) sq.1 sq.2 (-d.1) (-d.2)
          (by have := count_in_row_le_length b p sq.1 sq.2 (-d.1) (-d.2) hd2 (b.cells.length + 1); omega))
        hb
    rw [hcf, hcb]
    exact hle

theorem count_in_row_cells_congr (b1 b2 : Board) (hc : b1.cells = b2.cells) (p : Mark) :
    ∀ (fuel : Nat) (x y dx dy : Int),
      count_in_row b1 p fuel x y dx dy = count_in_row b2 p fuel x y dx dy := by
  intro fuel
  induction fuel with
  | zero => intro x y dx dy; rfl
  | succ fuel ih =>
      intro x y dx dy
      have hg : b1.get? (x, y) = b2.get? (x, y) := by
        show lookupCells b1.cells (x, y) = lookupCells b2.cells (x, y)
        rw [hc]
      simp only [count_in_row, hg, ih]

theorem k_in_row_cells_congr (b1 b2 : Board) (hc : b1.cells = b2.cells)
    (p : Mark) (sq : Coord) (k : Nat) :
    k_in_row b1 p sq k = k_in_row b2 p sq k := by
  unfold k_in_row
  have hlen : b1.cells.length = b2.cells.length := by rw [hc]
  congr 1
  funext d
  rw [count_in_row_cells_congr b1 b2 hc, count_in_row_cells_congr b1 b2 hc, hlen]

theorem result_utility_eq (g : TicTacToe) (b : Board) (sq : Coord) :
    (g.result b sq).utility =
      if k_in_row (g.result b sq) b.to_move sq g.k then
        (if b.to_move = Mark.X then 1 else -1)
      else 0 := by
  have base : (g.result b sq).utility =
      if k_in_row (b.new [(sq, b.to_move)] (some (flipMark b.to_move)) none)
          b.to_move sq g.k then
        (if b.to_move = Mark.X then 1 else -1)
      else 0 := rfl
  rw [base,
    k_in_row_cells_congr (b.new [(sq, b.to_move)] (some (flipMark b.to_move)) none)
      (g.result b sq) rfl b.to_move sq g.k]

/-- C3: `k_in_row(b, p, q, k)` is true exactly when, along one of the four
axis directions, the forward contiguous run of `p`'s marks from `q` plus the
backward run, minus one, reaches `k`; consequently `result` sets the new
board's utility to `+1` when the placed mark is `X`'s and completes such a
run through the placed square, to `-1` when it is `O`'s, and to `0` when no
such run exists. -/
theorem C3_k_in_row_and_result_utility :
    (∀ (b : Board) (p : Mark) (sq : Coord) (k : Nat),
        k_in_row b p sq k = true ↔ kRowSpec b p sq k) ∧
      ∀ (g : TicTacToe) (b : Board) (sq : Coord),
        (kRowSpec (g.result b sq) b.to_move sq g.k →
          (g.result b sq).utility = if b.to_move = Mark.X then 1 else -1) ∧
        (¬ kRowSpec (g.result b sq) b.to_move sq g.k →
          (g.result b sq).utility = 0) := by
  refine ⟨k_in_row_iff_kRowSpec, fun g b sq => ⟨fun hspec => ?_, fun hspec => ?_⟩⟩
  · rw [result_utility_eq,
      if_pos ((k_in_row_iff_kRowSpec (g.result b sq) b.to_move sq g.k).mpr hspec)]
  · rw [result_utility_eq, if_neg]
    intro hwin
    exact hspec ((k_in_row_iff_kRowSpec (g.result b sq) b.to_move sq g.k).mp hwin)

/-- C3 witness: on the 1×1 game with `k = 1`, the first move completes a run
through the placed square and the resulting utility is `+1`. -/
theorem C3_witness : (game1.result game1.initial (0, 0)).utility = 1 := by
  have hspec : kRowSpec (game1.result game1.initial (0, 0)) Mark.X (0, 0) 1 := by
    refine ⟨(0, 1), by decide, 1, 1, ⟨?_, by decide⟩, ⟨?_, by decide⟩, by norm_num⟩
    · intro i hi
      have hi0 : i = 0 := by omega
      subst hi0
      decide
    · intro i hi
      have hi0 : i = 0 := by omega
      subst hi0
      decide
  have h := (C3_k_in_row_and_result_utility.2 game1 game1.initial (0, 0)).1 hspec
  simpa using h

theorem mem_squaresList (g : TicTacToe) (c : Coord) :
    c ∈ g.squaresList ↔
      0 ≤ c.1 ∧ c.1 < (g.width : Int) ∧ 0 ≤ c.2 ∧ c.2 < (g.height : Int) := by
  obtain ⟨cx, cy⟩ := c
  simp only [TicTacToe.squaresList, List.mem_flatMap, List.mem_map, List.mem_range,
    Prod.mk.injEq]
  constructor
  · rintro ⟨x, hx, y, hy, rfl, rfl⟩
    refine ⟨by omega, by omega, by omega, by omega⟩
  · rintro ⟨h1, h2, h3, h4⟩
    exact ⟨cx.toNat, by omega, cy.toNat, by omega, by omega, by omega⟩

theorem squaresList_nodup (g : TicTacToe) : g.squaresList.Nodup := by
  rw [TicTacToe.squaresList, List.nodup_flatMap]
  constructor
  · intro x _
    refine List.Nodup.map ?_ (List.nodup_range _)
    intro a b hab
    simp only [Prod.mk.injEq] at hab
    exact_mod_cast hab.2
  · refine (List.pairwise_lt_range _).imp ?_
    intro a b hab
    intro z hza hzb
    simp only [List.mem_map, List.mem_range] at hza hzb
    obtain ⟨y1, _, hz1⟩ := hza
    obtain ⟨y2, _, hz2⟩ := hzb
    rw [← hz2] at hz1
    simp only [Prod.mk.injEq] at hz1
    have : a = b := by exact_mod_cast hz1.1
    omega

theorem sum_map_const_nat {α : Type} (l : List α) (c : Nat) :
    (l.map fun _ => c).sum = l.length * c := by
  induction l with
  | nil => simp
  | cons a as ih =>
      simp only [List.map_cons, List.sum_cons, List.length_cons, ih]
      ring

theorem squaresList_length (g : TicTacToe) :
    g.squaresList.length = g.width * g.height := by
  rw [TicTacToe.squaresList, List.length_flatMap]
  rw [List.map_congr_left (g := fun _ => g.height) (by intro x _; simp)]
  rw [sum_map_const_nat, List.length_range]

theorem mem_actions (g : TicTacToe) (b : Board) (c : Coord) :
    c ∈ g.actions b ↔ c ∈ g.squaresList ∧ b.get? c = none := by
  simp [TicTacToe.actions, List.mem_filter, Option.isNone_iff_eq_none, Board.get?]

theorem actions_nodup (g : TicTacToe) (b : Board) : (g.actions b).Nodup :=
  (squaresList_nodup g).filter _

theorem reachable_inv {g : TicTacToe} {b : Board} (h : Reachable g b) :
    b.width = g.width ∧ b.height = g.height ∧ (keysOf b.cells).Nodup ∧
      ∀ c ∈ keysOf b.cells, c ∈ g.squaresList := by
  induction h with
  | init => exact ⟨rfl, rfl, List.nodup_nil, by simp [TicTacToe.initial, keysOf]⟩
  | @step b a hb ha ih =>
      obtain ⟨hw, hh, hnd, hsub⟩ := ih
      have haNone : (lookupCells b.cells a).isNone = true := (List.mem_filter.mp ha).2
      have hanotin : a ∉ keysOf b.cells := by
        intro hmem
        rw [← lookupCells_isSome_iff] at hmem
        rw [Option.isNone_iff_eq_none] at haNone
        rw [haNone] at hmem
        simp at hmem
      have hcells : (g.result b a).cells = insertCell b.cells a b.to_move := rfl
      have hkeys : keysOf (g.result b a).cells = keysOf b.cells ++ [a] := by
        rw [hcells, keysOf_insertCell, if_neg hanotin]
      refine ⟨hw, hh, ?_, ?_⟩
      · rw [hkeys]
        simp [List.nodup_append, hnd, hanotin]
      · intro c hc
        rw [hkeys] at hc
        rcases List.mem_append.mp hc with hold | hnew
        · exact hsub c hold
        · rw [List.mem_singleton.mp hnew]
          exact (List.mem_filter.mp ha).1

theorem length_filter_split {α : Type} (l : List α) (p q : α → Bool)
    (hpq : ∀ a, q a = !(p a)) :
    l.length = (l.filter p).length + (l.filter q).length := by
  induction l with
  | nil => rfl
  | cons a as ih =>
      cases hpa : p a
      · have hqa : q a = true := by rw [hpq, hpa]; rfl
        simp [List.filter_cons, hpa, hqa]
        omega
      · have hqa : q a = false := by rw [hpq, hpa]; rfl
        simp [List.filter_cons, hpa, hqa]
        omega

/-- C8: for every reachable board, `actions` is exactly the set of in-bounds
unoccupied coordinates, its size is `width*height` minus the occupied count,
and it is empty exactly when the grid is full. -/
theorem C8_actions_exact (g : TicTacToe) (b : Board) (hR : Reachable g b) :
    (∀ c : Coord, c ∈ g.actions b ↔
        (0 ≤ c.1 ∧ c.1 < (g.width : Int) ∧ 0 ≤ c.2 ∧ c.2 < (g.height : Int)) ∧
          b.get? c = none) ∧
      (g.actions b).length = g.width * g.height - b.cells.length ∧
      (g.actions b = [] ↔ b.cells.length = g.width * g.height) := by
  obtain ⟨hw, hh, hnd, hsub⟩ := reachable_inv hR
  have hslen := squaresList_length g
  have hperm : (g.squaresList.filter fun c => (lookupCells b.cells c).isSome).Perm
      (keysOf b.cells) := by
    refine (List.perm_ext_iff_of_nodup ((squaresList_nodup g).filter _) hnd).mpr ?_
    intro c
    simp only [List.mem_filter]
    constructor
    · rintro ⟨_, hs⟩
      exact (lookupCells_isSome_iff _ _).mp hs
    · intro hc
      exact ⟨hsub c hc, (lookupCells_isSome_iff _ _).mpr hc⟩
  have hocc : (g.squaresList.filter fun c => (lookupCells b.cells c).isSome).length =
      b.cells.length := by
    rw [hperm.length_eq]
    simp [keysOf]
  have hact : g.actions b = g.squaresList.filter fun c => (lookupCells b.cells c).isNone := rfl
  have key := length_filter_split g.squaresList
    (fun c => (lookupCells b.cells c).isSome)
    (fun c => (lookupCells b.cells c).isNone)
    (by
      intro a
      show (lookupCells b.cells a).isNone = !(lookupCells b.cells a).isSome
      cases lookupCells b.cells a <;> rfl)
  rw [hocc] at key
  rw [← hact] at key
  have hle : b.cells.length ≤ g.width * g.height := by
    have h1 := (List.subperm_of_subset hnd fun c hc => hsub c hc).length_le
    simp only [keysOf, List.length_map] at h1
    omega
  refine ⟨?_, by omega, ?_⟩
  · intro c
    rw [mem_actions, mem_squaresList]
  · rw [← List.length_eq_zero]
    omega

/-- C8 witness: the empty 2×2 board has exactly `2*2 - 0` legal moves. -/
theorem C8_witness :
    (game2.actions game2.initial).length =
      game2.width * game2.height - game2.initial.cells.length :=
  (C8_actions_exact game2 game2.initial Reachable.init).2.1

theorem result_cells (g : TicTacToe) (b : Board) (a : Coord) :
    (g.result b a).cells = insertCell b.cells a b.to_move := rfl

theorem actions_result_eq (g : TicTacToe) (b : Board) (a : Coord) :
    g.actions (g.result b a) = (g.actions b).filter fun c => !(decide (a = c)) := by
  show g.squaresList.filter _ = (g.squaresList.filter _).filter _
  rw [List.filter_filter]
  apply List.filter_congr
  intro c _
  show (lookupCells (insertCell b.cells a b.to_move) c).isNone =
    (!(decide (a = c)) && (lookupCells b.cells c).isNone)
  rw [lookupCells_insertCell]
  by_cases hac : a = c
  · simp [hac]
  · simp [hac]

theorem length_filter_ne {α : Type} [DecidableEq α] (l : List α) (a : α)
    (hnd : l.Nodup) (ha : a ∈ l) :
    (l.filter fun c => !(decide (a = c))).length + 1 = l.length := by
  induction l with
  | nil => cases ha
  | cons x xs ih =>
      rcases List.mem_cons.mp ha with rfl | hmem
      · have hnotin : a ∉ xs := (List.nodup_cons.mp hnd).1
        have hall : xs.filter (fun c => !(decide (a = c))) = xs := by
          apply List.filter_eq_self.mpr
          intro c hc
          simp only [Bool.not_eq_true']
          rw [decide_eq_false_iff_not]
          rintro rfl
          exact hnotin hc
        simp [List.filter_cons, hall]
      · have hx : ¬ (a = x) := by
          rintro rfl
          exact (List.nodup_cons.mp hnd).1 hmem
        have ihh := ih (List.nodup_cons.mp hnd).2 hmem
        have hpred : (!(decide (a = x))) = true := by simp [hx]
        rw [List.filter_cons, if_pos hpred, List.length_cons, List.length_cons]
        omega

theorem freeCount_result {g : TicTacToe} {b : Board} {a : Coord}
    (ha : a ∈ g.actions b) :
    g.freeCount (g.result b a) + 1 = g.freeCount b := by
  unfold TicTacToe.freeCount
  rw [actions_result_eq]
  exact length_filter_ne _ a (actions_nodup g b) ha

theorem mmLoopMax_fst (cv : Coord → EV) (l : List Coord) (v : EV) (m : Option Coord) :
    (mmLoopMax cv l v m).1 = (l.map cv).foldl max v := by
  induction l generalizing v m with
  | nil => rfl
  | cons a as ih =>
      simp only [mmLoopMax, List.map_cons, List.foldl_cons]
      by_cases hlt : v < cv a
      · rw [if_pos hlt, ih]
        congr 1
        exact (max_eq_right hlt.le).symm
      · rw [if_neg hlt, ih]
        congr 1
        exact (max_eq_left (not_lt.mp hlt)).symm

theorem mmLoopMin_fst (cv : Coord → EV) (l : List Coord) (v : EV) (m : Option Coord) :
    (mmLoopMin cv l v m).1 = (l.map cv).foldl min v := by
  induction l generalizing v m with
  | nil => rfl
  | cons a as ih =>
      simp only [mmLoopMin, List.map_cons, List.foldl_cons]
      by_cases hlt : cv a < v
      · rw [if_pos hlt, ih]
        congr 1
        exact (min_eq_right hlt.le).symm
      · rw [if_neg hlt, ih]
        congr 1
        exact (min_eq_left (not_lt.mp hlt)).symm

theorem le_foldl_max (l : List EV) (v : EV) : v ≤ l.foldl max v := by
  induction l generalizing v with
  | nil => exact le_refl v
  | cons a as ih => exact le_trans (le_max_left v a) (ih (max v a))

theorem foldl_min_le (l : List EV) (v : EV) : l.foldl min v ≤ v := by
  induction l generalizing v with
  | nil => exact le_refl v
  | cons a as ih => exact le_trans (ih (min v a)) (min_le_left v a)

theorem foldl_max_mono (l : List EV) {u w : EV} (h : u ≤ w) :
    l.foldl max u ≤ l.foldl max w := by
  induction l generalizing u w with
  | nil => exact h
  | cons a as ih => exact ih (max_le_max h (le_refl a))

theorem foldl_min_mono (l : List EV) {u w : EV} (h : u ≤ w) :
    l.foldl min u ≤ l.foldl min w := by
  induction l generalizing u w with
  | nil => exact h
  | cons a as ih => exact ih (min_le_min h (le_refl a))

theorem foldl_max_max (l : List EV) (u w : EV) :
    l.foldl max (max u w) = max u (l.foldl max w) := by
  induction l generalizing w with
  | nil => rfl
  | cons a as ih =>
      simp only [List.foldl_cons]
      rw [max_assoc, ih]

theorem foldl_min_min (l : List EV) (u w : EV) :
    l.foldl min (min u w) = min u (l.foldl min w) := by
  induction l generalizing w with
  | nil => rfl
  | cons a as ih =>
      simp only [List.foldl_cons]
      rw [min_assoc, ih]

theorem mem_le_foldl_max (l : List EV) (v : EV) {x : EV} (hx : x ∈ l) :
    x ≤ l.foldl max v := by
  induction l generalizing v with
  | nil => cases hx
  | cons a as ih =>
      rcases List.mem_cons.mp hx with rfl | hmem
      · exact le_trans (le_max_right v x) (le_foldl_max as (max v x))
      · exact ih (max v a) hmem

theorem foldl_min_le_mem (l : List EV) (v : EV) {x : EV} (hx : x ∈ l) :
    l.foldl min v ≤ x := by
  induction l generalizing v with
  | nil => cases hx
  | cons a as ih =>
      rcases List.mem_cons.mp hx with rfl | hmem
      · exact le_trans (foldl_min_le as (min v x)) (min_le_right v x)
      · exact ih (min v a) hmem

theorem foldl_max_cases (l : List EV) (v : EV) :
    l.foldl max v = v ∨ l.foldl max v ∈ l := by
  induction l generalizing v with
  | nil => exact Or.inl rfl
  | cons a as ih =>
      simp only [List.foldl_cons]
      rcases ih (max v a) with h | h
      · rcases max_choice v a with hv | hv
        · exact Or.inl (h.trans hv)
        · exact Or.inr (List.mem_cons.mpr (Or.inl (h.trans hv)))
      · exact Or.inr (List.mem_cons.mpr (Or.inr h))

theorem foldl_min_cases (l : List EV) (v : EV) :
    l.foldl min v = v ∨ l.foldl min v ∈ l := by
  induction l generalizing v with
  | nil => exact Or.inl rfl
  | cons a as ih =>
      simp only [List.foldl_cons]
      rcases ih (min v a) with h | h
      · rcases min_choice v a with hv | hv
        · exact Or.inl (h.trans hv)
        · exact Or.inr (List.mem_cons.mpr (Or.inl (h.trans hv)))
      · exact Or.inr (List.mem_cons.mpr (Or.inr h))

theorem mm_terminal (g : TicTacToe) (root : Mark) (fuel : Nat) (maxing : Bool)
    (s : Board) (hterm : g.is_terminal s = true) :
    mm g root (fuel + 1) maxing s = (EV.fin (g.utility s root), none) := by
  cases maxing <;> simp [mm, hterm]

theorem mm_succ_max (g : TicTacToe) (root : Mark) (fuel : Nat) (s : Board)
    (hterm : ¬ (g.is_terminal s = true)) :
    mm g root (fuel + 1) true s =
      mmLoopMax (fun a => (mm g root fuel false (g.result s a)).1) (g.actions s)
        EV.negInf none := by
  simp [mm, hterm]

theorem mm_succ_min (g : TicTacToe) (root : Mark) (fuel : Nat) (s : Board)
    (hterm : ¬ (g.is_terminal s = true)) :
    mm g root (fuel + 1) false s =
      mmLoopMin (fun a => (mm g root fuel true (g.result s a)).1) (g.actions s)
        EV.posInf none := by
  simp [mm, hterm]

theorem bgValue_terminal (g : TicTacToe) (root : Mark) (fuel : Nat) (s : Board)
    (hterm : g.is_terminal s = true) :
    bgValue g root (fuel + 1) s = EV.fin (g.utility s root) := by
  simp [bgValue, hterm]

theorem bgValue_max (g : TicTacToe) (root : Mark) (fuel : Nat) (s : Board)
    (hterm : ¬ (g.is_terminal s = true)) (hroot : s.to_move = root) :
    bgValue g root (fuel + 1) s =
      ((g.actions s).map fun a => bgValue g root fuel (g.result s a)).foldl max
        EV.negInf := by
  simp [bgValue, hterm, hroot]

theorem bgValue_min (g : TicTacToe) (root : Mark) (fuel : Nat) (s : Board)
    (hterm : ¬ (g.is_terminal s = true)) (hroot : ¬ s.to_move = root) :
    bgValue g root (fuel + 1) s =
      ((g.actions s).map fun a => bgValue g root fuel (g.result s a)).foldl min
        EV.posInf := by
  simp [bgValue, hterm, hroot]

theorem result_to_move (g : TicTacToe) (b : Board) (a : Coord) :
    (g.result b a).to_move = flipMark b.to_move := rfl

theorem mm_fst_eq_bgValue (g : TicTacToe) (root : Mark) :
    ∀ (fuel : Nat) (maxing : Bool) (s : Board),
      s.to_move = (if maxing then root else flipMark root) →
      g.freeCount s < fuel →
      (mm g root fuel maxing s).1 = bgValue g root fuel s := by
  intro fuel
  induction fuel with
  | zero =>
      intro maxing s _ h
      omega
  | succ fuel ih =>
      intro maxing s htm hf
      by_cases hterm : g.is_terminal s
      · rw [mm_terminal g root fuel maxing s hterm, bgValue_terminal g root fuel s hterm]
      · cases maxing
        · have hmove : s.to_move = flipMark root := by simpa using htm
          have hne : ¬ s.to_move = root := by
            rw [hmove]
            exact flipMark_ne root
          rw [mm_succ_min g root fuel s hterm, mmLoopMin_fst,
            bgValue_min g root fuel s hterm hne]
          congr 1
          apply List.map_congr_left
          intro a ha
          apply ih true
          · show (g.result s a).to_move = if true then root else flipMark root
            rw [result_to_move, hmove, flipMark_flipMark]
            rfl
          · have := freeCount_result ha
            omega
        · have hmove : s.to_move = root := by simpa using htm
          rw [mm_succ_max g root fuel s hterm, mmLoopMax_fst,
            bgValue_max g root fuel s hterm hmove]
          congr 1
          apply List.map_congr_left
          intro a ha
          apply ih false
          · show (g.result s a).to_move = if false then root else flipMark root
            rw [result_to_move, hmove]
            rfl
          · have := freeCount_result ha
            omega

theorem actions_ne_nil_of_not_terminal {g : TicTacToe} {b : Board}
    (hR : Reachable g b) (hterm : ¬ (g.is_terminal b = true)) : g.actions b ≠ [] := by
  obtain ⟨hw, hh, hnd, hsub⟩ := reachable_inv hR
  have hlen : g.squaresList.length ≠ b.cells.length := by
    intro heq
    apply hterm
    unfold TicTacToe.is_terminal
    simp [heq]
  intro hnil
  have hall : ∀ c ∈ g.squaresList, c ∈ keysOf b.cells := by
    intro c hc
    by_contra hnot
    have hmem : c ∈ g.actions b := by
      rw [mem_actions]
      refine ⟨hc, ?_⟩
      rw [Board.get?]
      cases hlv : lookupCells b.cells c with
      | none => rfl
      | some m =>
          exact absurd ((lookupCells_isSome_iff _ _).mp (by simp [hlv])) hnot
    rw [hnil] at hmem
    cases hmem
  have h2 := (List.subperm_of_subset (squaresList_nodup g) hall).length_le
  have h1 := (List.subperm_of_subset hnd fun c hc => hsub c hc).length_le
  simp only [keysOf, List.length_map] at h1 h2
  omega

theorem mm_fst_fin (g : TicTacToe) (root : Mark) :
    ∀ (fuel : Nat) (maxing : Bool) (b : Board), Reachable g b → g.freeCount b < fuel →
      ∃ n : Int, (mm g root fuel maxing b).1 = EV.fin n := by
  intro fuel
  induction fuel with
  | zero =>
      intro _ _ _ h
      omega
  | succ fuel ih =>
      intro maxing b hR hf
      by_cases hterm : g.is_terminal b
      · exact ⟨g.utility b root, by rw [mm_terminal g root fuel maxing b hterm]⟩
      · have hne := actions_ne_nil_of_not_terminal hR hterm
        have hvals : ∀ x ∈ (g.actions b).map
            (fun a => (mm g root fuel (!maxing) (g.result b a)).1),
            ∃ n : Int, x = EV.fin n := by
          intro x hx
          rcases List.mem_map.mp hx with ⟨a, ha, rfl⟩
          exact ih (!maxing) (g.result b a) (hR.step ha)
            (by have := freeCount_result ha; omega)
        obtain ⟨a0, ha0⟩ := List.exists_mem_of_ne_nil _ hne
        cases maxing
        · simp only [Bool.not_false] at hvals
          rw [mm_succ_min g root fuel b hterm, mmLoopMin_fst]
          rcases foldl_min_cases
            ((g.actions b).map fun a => (mm g root fuel true (g.result b a)).1)
            EV.posInf with hcase | hcase
          · exfalso
            have hle := foldl_min_le_mem
              ((g.actions b).map fun a => (mm g root fuel true (g.result b a)).1)
              EV.posInf (List.mem_map_of_mem _ ha0)
            rw [hcase] at hle
            obtain ⟨n, hn⟩ := hvals _ (List.mem_map_of_mem _ ha0)
            rw [hn] at hle
            simp at hle
          · obtain ⟨n, hn⟩ := hvals _ hcase
            exact ⟨n, hn⟩
        · simp only [Bool.not_true] at hvals
          rw [mm_succ_max g root fuel b hterm, mmLoopMax_fst]
          rcases foldl_max_cases
            ((g.actions b).map fun a => (mm g root fuel false (g.result b a)).1)
            EV.negInf with hcase | hcase
          · exfalso
            have hle := mem_le_foldl_max
              ((g.actions b).map fun a => (mm g root fuel false (g.result b a)).1)
              EV.negInf (List.mem_map_of_mem _ ha0)
            rw [hcase] at hle
            obtain ⟨n, hn⟩ := hvals _ (List.mem_map_of_mem _ ha0)
            rw [hn] at hle
            simp at hle
          · obtain ⟨n, hn⟩ := hvals _ hcase
            exact ⟨n, hn⟩

theorem mmLoopMax_snd_stable (cv : Coord → EV) :
    ∀ (l : List Coord) (v : EV) (m : Option Coord),
      (l.map cv).foldl max v = v → (mmLoopMax cv l v m).2 = m := by
  intro l
  induction l with
  | nil =>
      intro v m _
      rfl
  | cons a as ih =>
      intro v m hstab
      simp only [List.map_cons, List.foldl_cons] at hstab
      have hfold_ge : max v (cv a) ≤ (as.map cv).foldl max (max v (cv a)) :=
        le_foldl_max _ _
      have h2 : max v (cv a) ≤ v := by
        rw [hstab] at hfold_ge
        exact hfold_ge
      have hle : cv a ≤ v := le_trans (le_max_right v (cv a)) h2
      have hnotlt : ¬ v < cv a := not_lt.mpr hle
      rw [max_eq_left hle] at hstab
      simp only [mmLoopMax, if_neg hnotlt]
      exact ih v m hstab

theorem mmLoopMax_snd (cv : Coord → EV) :
    ∀ (l : List Coord) (v : EV) (m : Option Coord),
      v < (l.map cv).foldl max v →
      (mmLoopMax cv l v m).2 =
        l.find? fun a => cv a == (l.map cv).foldl max v := by
  intro l
  induction l with
  | nil =>
      intro v m hlt
      simp at hlt
  | cons a as ih =>
      intro v m hlt
      simp only [List.map_cons, List.foldl_cons] at hlt ⊢
      by_cases hva : v < cv a
      · simp only [mmLoopMax, if_pos hva]
        rw [max_eq_right hva.le] at hlt ⊢
        by_cases h2 : cv a < (as.map cv).foldl max (cv a)
        · rw [ih (cv a) (some a) h2, List.find?_cons_of_neg]
          simp only [beq_iff_eq]
          exact ne_of_lt h2
        · have hVeq : (as.map cv).foldl max (cv a) = cv a :=
            le_antisymm (not_lt.mp h2) (le_foldl_max _ _)
          rw [mmLoopMax_snd_stable cv as (cv a) (some a) hVeq,
            List.find?_cons_of_pos]
          rw [hVeq]
          simp
      · simp only [mmLoopMax, if_neg hva]
        have hle : cv a ≤ v := not_lt.mp hva
        rw [max_eq_left hle] at hlt ⊢
        rw [ih v m hlt, List.find?_cons_of_neg]
        simp only [beq_iff_eq]
        exact ne_of_lt (lt_of_le_of_lt hle hlt)

theorem find?_congr {α : Type} (l : List α) (p q : α → Bool)
    (h : ∀ a ∈ l, p a = q a) : l.find? p = l.find? q := by
  induction l with
  | nil => rfl
  | cons a as ih =>
      have hqa := h a (List.mem_cons_self a as)
      by_cases hp : p a = true
      · rw [List.find?_cons_of_pos _ hp, List.find?_cons_of_pos _ (hqa ▸ hp)]
      · rw [List.find?_cons_of_neg _ hp, List.find?_cons_of_neg _ (hqa ▸ hp),
          ih fun x hx => h x (List.mem_cons_of_mem _ hx)]

/-- C2: for every reachable state, `minimax_search_tt` returns the exact
backward-induction value of the state from the perspective of the root
player `s.to_move`, fixed once at search start; at a terminal state it
returns `(utility(state, root_player), no move)`, and at a non-terminal
state the role on move maximizes (root player to move) or minimizes
(opponent to move) over the recursively computed child values, keeping the
first-seen action that achieves the best value. -/
theorem C2_minimax_exact_backward_induction (g : TicTacToe) (s : Board)
    (hR : Reachable g s) :
    (minimax_search_tt g s).1 = bgValue g s.to_move (g.freeCount s + 1) s ∧
      (g.is_terminal s = true →
        minimax_search_tt g s = (EV.fin (g.utility s s.to_move), none)) ∧
      (¬ (g.is_terminal s = true) →
        (minimax_search_tt g s).2 = (g.actions s).find? fun a =>
          bgValue g s.to_move (g.freeCount s) (g.result s a) ==
            bgValue g s.to_move (g.freeCount s + 1) s) := by
  refine ⟨?_, ?_, ?_⟩
  · exact mm_fst_eq_bgValue g s.to_move (g.freeCount s + 1) true s (by simp) (by omega)
  · intro hterm
    exact mm_terminal g s.to_move (g.freeCount s) true s hterm
  · intro hterm
    have hstep := mm_succ_max g s.to_move (g.freeCount s) s hterm
    obtain ⟨n, hn⟩ := mm_fst_fin g s.to_move (g.freeCount s + 1) true s hR (by omega)
    have hfold : ((g.actions s).map fun a =>
        (mm g s.to_move (g.freeCount s) false (g.result s a)).1).foldl max EV.negInf =
        (mm g s.to_move (g.freeCount s + 1) true s).1 := by
      rw [hstep, mmLoopMax_fst]
    have hlt : EV.negInf < ((g.actions s).map fun a =>
        (mm g s.to_move (g.freeCount s) false (g.result s a)).1).foldl max
        EV.negInf := by
      rw [hfold, hn]
      simp
    show (mm g s.to_move (g.freeCount s + 1) true s).2 = _
    rw [hstep, mmLoopMax_snd _ _ _ _ hlt]
    apply find?_congr
    intro a ha
    have hchild : (mm g s.to_move (g.freeCount s) false (g.result s a)).1 =
        bgValue g s.to_move (g.freeCount s) (g.result s a) := by
      apply mm_fst_eq_bgValue
      · show (g.result s a).to_move = if false then s.to_move else flipMark s.to_move
        rw [result_to_move]
        simp
      · have := freeCount_result ha
        omega
    have htop : ((g.actions s).map fun a =>
        (mm g s.to_move (g.freeCount s) false (g.result s a)).1).foldl max EV.negInf =
        bgValue g s.to_move (g.freeCount s + 1) s := by
      rw [hfold]
      exact mm_fst_eq_bgValue g s.to_move (g.freeCount s + 1) true s (by simp) (by omega)
    rw [hchild, htop]

/-- C2 witness at the concrete empty 2×2 board. -/
theorem C2_witness :
    (minimax_search_tt game2 game2.initial).1 =
      bgValue game2 game2.initial.to_move (game2.freeCount game2.initial + 1)
        game2.initial :=
  (C2_minimax_exact_backward_induction game2 game2.initial Reachable.init).1

theorem foldl_max_decomp (l : List EV) (z : EV) :
    l.foldl max z = max z (l.foldl max EV.negInf) := by
  have := foldl_max_max l z EV.negInf
  rwa [max_eq_left (EV.negInf_le z)] at this

theorem foldl_min_decomp (l : List EV) (z : EV) :
    l.foldl min z = min z (l.foldl min EV.posInf) := by
  have := foldl_min_min l z EV.posInf
  rwa [min_eq_left (EV.le_posInf z)] at this

theorem abLoopMax_spec (cv : Coord → EV → EV) (tv : Coord → EV) (beta alpha0 : EV)
    (hab : alpha0 < beta) :
    ∀ (l : List Coord) (v : EV) (m : Option Coord) (alpha : EV),
      alpha = EV.pymax alpha0 v → v < beta →
      (∀ a ∈ l, ∀ al : EV, al < beta →
        (cv a al ≤ al → tv a ≤ cv a al) ∧
        (beta ≤ cv a al → cv a al ≤ tv a) ∧
        (al < cv a al → cv a al < beta → cv a al = tv a)) →
      ((abLoopMax cv beta l v m alpha).1 ≤ alpha0 →
          (l.map tv).foldl max v ≤ (abLoopMax cv beta l v m alpha).1) ∧
      (beta ≤ (abLoopMax cv beta l v m alpha).1 →
          (abLoopMax cv beta l v m alpha).1 ≤ (l.map tv).foldl max EV.negInf) ∧
      (alpha0 < (abLoopMax cv beta l v m alpha).1 →
          (abLoopMax cv beta l v m alpha).1 < beta →
          (abLoopMax cv beta l v m alpha).1 = (l.map tv).foldl max v) := by
  intro l
  induction l with
  | nil =>
      intro v m alpha _ hv _
      exact ⟨fun _ => le_refl _, fun hge => absurd hge (not_le.mpr hv),
        fun _ _ => rfl⟩
  | cons a as ih =>
      intro v m alpha halpha hv hchild
      have halb : alpha < beta := by
        rw [halpha, EV.pymax_eq_max]
        exact max_lt hab hv
      obtain ⟨hc1, hc2, hc3⟩ := hchild a (List.mem_cons_self a as) alpha halb
      have hchild' : ∀ x ∈ as, ∀ al : EV, al < beta →
          (cv x al ≤ al → tv x ≤ cv x al) ∧
          (beta ≤ cv x al → cv x al ≤ tv x) ∧
          (al < cv x al → cv x al < beta → cv x al = tv x) :=
        fun x hx => hchild x (List.mem_cons_of_mem a hx)
      by_cases hupd : v < cv a alpha
      · by_cases hprune : beta ≤ cv a alpha
        · have hloop : abLoopMax cv beta (a :: as) v m alpha = (cv a alpha, some a) := by
            simp only [abLoopMax]
            rw [if_pos hupd, if_pos hprune]
          rw [hloop]
          refine ⟨?_, ?_, ?_⟩
          · intro hr
            exact absurd (lt_of_le_of_lt hr hab) (not_lt.mpr hprune)
          · intro _
            calc cv a alpha ≤ tv a := hc2 hprune
              _ ≤ ((a :: as).map tv).foldl max EV.negInf :=
                mem_le_foldl_max _ _ (by simp)
          · intro _ hlt
            exact absurd hlt (not_lt.mpr hprune)
        · have hv2b : cv a alpha < beta := not_le.mp hprune
          have halpha' : EV.pymax alpha (cv a alpha) = EV.pymax alpha0 (cv a alpha) := by
            have hupd' := hupd
            generalize hgen : cv a alpha = w
            rw [hgen] at hupd'
            rw [halpha]
            simp only [EV.pymax_eq_max]
            rw [max_assoc, max_eq_right hupd'.le]
          have hloop : abLoopMax cv beta (a :: as) v m alpha =
              abLoopMax cv beta as (cv a alpha) (some a) (EV.pymax alpha (cv a alpha)) := by
            simp only [abLoopMax]
            rw [if_pos hupd, if_neg hprune]
          rw [hloop, halpha']
          obtain ⟨I1, I2, I3⟩ :=
            ih (cv a alpha) (some a) (EV.pymax alpha0 (cv a alpha)) rfl hv2b hchild'
          have hT : ((a :: as).map tv).foldl max v =
              max (max v (tv a)) ((as.map tv).foldl max EV.negInf) := by
            simp only [List.map_cons, List.foldl_cons]
            exact foldl_max_decomp _ _
          have hT' : (as.map tv).foldl max (cv a alpha) =
              max (cv a alpha) ((as.map tv).foldl max EV.negInf) := foldl_max_decomp _ _
          by_cases hlow : cv a alpha ≤ alpha
          · have htva : tv a ≤ cv a alpha := hc1 hlow
            have hv2a0 : cv a alpha ≤ alpha0 := by
              have halpm : alpha = max alpha0 v := by
                rw [halpha, EV.pymax_eq_max]
              rcases le_max_iff.mp (le_of_le_of_eq hlow halpm) with h' | h'
              · exact h'
              · exact absurd hupd (not_lt.mpr h')
            have hTT' : ((a :: as).map tv).foldl max v ≤
                (as.map tv).foldl max (cv a alpha) := by
              rw [hT, hT']
              exact max_le_max (max_le hupd.le htva) (le_refl _)
            refine ⟨?_, ?_, ?_⟩
            · intro hra
              exact le_trans hTT' (I1 hra)
            · intro hrb
              calc (abLoopMax cv beta as (cv a alpha) (some a)
                    (EV.pymax alpha0 (cv a alpha))).1
                  ≤ (as.map tv).foldl max EV.negInf := I2 hrb
                _ ≤ ((a :: as).map tv).foldl max EV.negInf := by
                    simp only [List.map_cons, List.foldl_cons]
                    exact foldl_max_mono _ (le_max_left _ _)
            · intro hra hrb
              have hreq := I3 hra hrb
              rw [hT'] at hreq
              rcases le_or_lt (cv a alpha) ((as.map tv).foldl max EV.negInf) with hvF | hvF
              · rw [max_eq_right hvF] at hreq
                rw [hT]
                exact hreq.trans
                  (max_eq_right (le_trans (max_le hupd.le htva) hvF)).symm
              · rw [max_eq_left hvF.le] at hreq
                exact absurd hra (not_lt.mpr (le_of_eq_of_le hreq hv2a0))
          · have hmid : alpha < cv a alpha := not_le.mp hlow
            have hv2tv : cv a alpha = tv a := hc3 hmid hv2b
            have hTT'eq : ((a :: as).map tv).foldl max v =
                (as.map tv).foldl max (cv a alpha) := by
              rw [hT, hT']
              congr 1
              rw [← hv2tv]
              exact max_eq_right hupd.le
            refine ⟨?_, ?_, ?_⟩
            · intro hra
              rw [hTT'eq]
              exact I1 hra
            · intro hrb
              refine le_trans (I2 hrb) ?_
              simp only [List.map_cons, List.foldl_cons]
              exact foldl_max_mono _ (le_max_left _ _)
            · intro hra hrb
              rw [hTT'eq]
              exact I3 hra hrb
      · have hv2v : cv a alpha ≤ v := not_lt.mp hupd
        have hloop : abLoopMax cv beta (a :: as) v m alpha =
            abLoopMax cv beta as v m alpha := by
          simp only [abLoopMax]
          rw [if_neg hupd, if_neg (not_le.mpr hv)]
        rw [hloop]
        obtain ⟨I1, I2, I3⟩ := ih v m alpha halpha hv hchild'
        have hvalpha : v ≤ alpha := by
          rw [halpha, EV.pymax_eq_max]
          exact le_max_right alpha0 v
        have hlow : cv a alpha ≤ alpha := le_trans hv2v hvalpha
        have htva : tv a ≤ cv a alpha := hc1 hlow
        have hTT'eq : ((a :: as).map tv).foldl max v = (as.map tv).foldl max v := by
          simp only [List.map_cons, List.foldl_cons]
          congr 1
          exact max_eq_left (le_trans htva hv2v)
        refine ⟨?_, ?_, ?_⟩
        · intro hra
          rw [hTT'eq]
          exact I1 hra
        · intro hrb
          refine le_trans (I2 hrb) ?_
          simp only [List.map_cons, List.foldl_cons]
          exact foldl_max_mono _ (le_max_left _ _)
        · intro hra hrb
          rw [hTT'eq]
          exact I3 hra hrb

theorem abLoopMin_spec (cv : Coord → EV → EV) (tv : Coord → EV) (alpha beta0 : EV)
    (hab : alpha < beta0) :
    ∀ (l : List Coord) (v : EV) (m : Option Coord) (beta : EV),
      beta = EV.pymin beta0 v → alpha < v →
      (∀ a ∈ l, ∀ be : EV, alpha < be →
        (cv a be ≤ alpha → tv a ≤ cv a be) ∧
        (be ≤ cv a be → cv a be ≤ tv a) ∧
        (alpha < cv a be → cv a be < be → cv a be = tv a)) →
      ((beta0 ≤ (abLoopMin cv alpha l v m beta).1 →
          (abLoopMin cv alpha l v m beta).1 ≤ (l.map tv).foldl min v) ∧
       ((abLoopMin cv alpha l v m beta).1 ≤ alpha →
          (l.map tv).foldl min EV.posInf ≤ (abLoopMin cv alpha l v m beta).1) ∧
       (alpha < (abLoopMin cv alpha l v m beta).1 →
          (abLoopMin cv alpha l v m beta).1 < beta0 →
          (abLoopMin cv alpha l v m beta).1 = (l.map tv).foldl min v)) := by
  intro l
  induction l with
  | nil =>
      intro v m beta _ hv _
      exact ⟨fun _ => le_refl _, fun hle => absurd hle (not_le.mpr hv),
        fun _ _ => rfl⟩
  | cons a as ih =>
      intro v m beta hbeta hv hchild
      have hbetm : beta = min beta0 v := by
        rw [hbeta, EV.pymin_eq_min]
      have halb : alpha < beta := by
        rw [hbetm]
        exact lt_min hab hv
      obtain ⟨hc1, hc2, hc3⟩ := hchild a (List.mem_cons_self a as) beta halb
      have hchild' : ∀ x ∈ as, ∀ be : EV, alpha < be →
          (cv x be ≤ alpha → tv x ≤ cv x be) ∧
          (be ≤ cv x be → cv x be ≤ tv x) ∧
          (alpha < cv x be → cv x be < be → cv x be = tv x) :=
        fun x hx => hchild x (List.mem_cons_of_mem a hx)
      by_cases hupd : cv a beta < v
      · by_cases hprune : cv a beta ≤ alpha
        · have hloop : abLoopMin cv alpha (a :: as) v m beta = (cv a beta, some a) := by
            simp only [abLoopMin]
            rw [if_pos hupd, if_pos hprune]
          rw [hloop]
          refine ⟨?_, ?_, ?_⟩
          · intro hrb
            exact absurd hprune (not_le.mpr (lt_of_lt_of_le hab hrb))
          · intro _
            calc ((a :: as).map tv).foldl min EV.posInf ≤ tv a :=
                foldl_min_le_mem _ _ (by simp)
              _ ≤ cv a beta := hc1 hprune
          · intro hra _
            exact absurd hra (not_lt.mpr hprune)
        · have hv2b : alpha < cv a beta := not_le.mp hprune
          have hbeta' : EV.pymin beta (cv a beta) = EV.pymin beta0 (cv a beta) := by
            have hupd' := hupd
            generalize hgen : cv a beta = w
            rw [hgen] at hupd'
            rw [hbeta]
            simp only [EV.pymin_eq_min]
            rw [min_assoc, min_eq_right hupd'.le]
          have hloop : abLoopMin cv alpha (a :: as) v m beta =
              abLoopMin cv alpha as (cv a beta) (some a) (EV.pymin beta (cv a beta)) := by
            simp only [abLoopMin]
            rw [if_pos hupd, if_neg hprune]
          rw [hloop, hbeta']
          obtain ⟨I1, I2, I3⟩ :=
            ih (cv a beta) (some a) (EV.pymin beta0 (cv a beta)) rfl hv2b hchild'
          have hT : ((a :: as).map tv).foldl min v =
              min (min v (tv a)) ((as.map tv).foldl min EV.posInf) := by
            simp only [List.map_cons, List.foldl_cons]
            exact foldl_min_decomp _ _
          have hT' : (as.map tv).foldl min (cv a beta) =
              min (cv a beta) ((as.map tv).foldl min EV.posInf) := foldl_min_decomp _ _
          by_cases hhigh : beta ≤ cv a beta
          · have htva : cv a beta ≤ tv a := hc2 hhigh
            have hv2b0 : beta0 ≤ cv a beta := by
              rcases min_le_iff.mp (le_of_eq_of_le hbetm.symm hhigh) with h' | h'
              · exact h'
              · exact absurd hupd (not_lt.mpr h')
            have hTT' : (as.map tv).foldl min (cv a beta) ≤
                ((a :: as).map tv).foldl min v := by
              rw [hT, hT']
              exact min_le_min (le_min hupd.le htva) (le_refl _)
            refine ⟨?_, ?_, ?_⟩
            · intro hrb
              exact le_trans (I1 hrb) hTT'
            · intro hra
              calc ((a :: as).map tv).foldl min EV.posInf
                  ≤ (as.map tv).foldl min EV.posInf := by
                    simp only [List.map_cons, List.foldl_cons]
                    exact foldl_min_mono _ (min_le_left _ _)
                _ ≤ (abLoopMin cv alpha as (cv a beta) (some a)
                      (EV.pymin beta0 (cv a beta))).1 := I2 hra
            · intro hra hrb
              have hreq := I3 hra hrb
              rw [hT'] at hreq
              rcases le_or_lt (cv a beta) ((as.map tv).foldl min EV.posInf) with hvF | hvF
              · rw [min_eq_left hvF] at hreq
                exact absurd hrb (not_lt.mpr (le_of_le_of_eq hv2b0 hreq.symm))
              · rw [min_eq_right hvF.le] at hreq
                rw [hT]
                exact hreq.trans
                  (min_eq_right (le_trans hvF.le (le_min hupd.le htva))).symm
          · have hmid : cv a beta < beta := not_le.mp hhigh
            have hv2tv : cv a beta = tv a := hc3 hv2b hmid
            have hTT'eq : ((a :: as).map tv).foldl min v =
                (as.map tv).foldl min (cv a beta) := by
              rw [hT, hT']
              congr 1
              rw [← hv2tv]
              exact min_eq_right hupd.le
            refine ⟨?_, ?_, ?_⟩
            · intro hrb
              rw [hTT'eq]
              exact I1 hrb
            · intro hra
              refine le_trans ?_ (I2 hra)
              simp only [List.map_cons, List.foldl_cons]
              exact foldl_min_mono _ (min_le_left _ _)
            · intro hra hrb
              rw [hTT'eq]
              exact I3 hra hrb
      · have hv2v : v ≤ cv a beta := not_lt.mp hupd
        have hloop : abLoopMin cv alpha (a :: as) v m beta =
            abLoopMin cv alpha as v m beta := by
          simp only [abLoopMin]
          rw [if_neg hupd, if_neg (not_le.mpr hv)]
        rw [hloop]
        obtain ⟨I1, I2, I3⟩ := ih v m beta hbeta hv hchild'
        have hbetav : beta ≤ v := by
          rw [hbetm]
          exact min_le_right beta0 v
        have hhigh : beta ≤ cv a beta := le_trans hbetav hv2v
        have htva : cv a beta ≤ tv a := hc2 hhigh
        have hTT'eq : ((a :: as).map tv).foldl min v = (as.map tv).foldl min v := by
          simp only [List.map_cons, List.foldl_cons]
          congr 1
          exact min_eq_left (le_trans hv2v htva)
        refine ⟨?_, ?_, ?_⟩
        · intro hrb
          rw [hTT'eq]
          exact I1 hrb
        · intro hra
          refine le_trans ?_ (I2 hra)
          simp only [List.map_cons, List.foldl_cons]
          exact foldl_min_mono _ (min_le_left _ _)
        · intro hra hrb
          rw [hTT'eq]
          exact I3 hra hrb

theorem ab_terminal (g : TicTacToe) (root : Mark)
    (cutoff : TicTacToe → Board → Nat → Bool) (h : Board → Mark → Int)
    (fuel : Nat) (maxing : Bool) (s : Board) (alpha beta : EV) (d : Nat)
    (hterm : g.is_terminal s = true) :
    ab g root cutoff h (fuel + 1) maxing s alpha beta d =
      (EV.fin (g.utility s root), none) := by
  cases maxing <;> simp [ab, hterm]

theorem ab_cutoff (g : TicTacToe) (root : Mark)
    (cutoff : TicTacToe → Board → Nat → Bool) (h : Board → Mark → Int)
    (fuel : Nat) (maxing : Bool) (s : Board) (alpha beta : EV) (d : Nat)
    (hterm : ¬ (g.is_terminal s = true)) (hcut : cutoff g s d = true) :
    ab g root cutoff h (fuel + 1) maxing s alpha beta d =
      (EV.fin (h s root), none) := by
  cases maxing <;> simp [ab, hterm, hcut]

theorem ab_succ_max (g : TicTacToe) (root : Mark)
    (cutoff : TicTacToe → Board → Nat → Bool) (h : Board → Mark → Int)
    (fuel : Nat) (s : Board) (alpha beta : EV) (d : Nat)
    (hterm : ¬ (g.is_terminal s = true)) (hcut : cutoff g s d = false) :
    ab g root cutoff h (fuel + 1) true s alpha beta d =
      abLoopMax
        (fun a al => (ab g root cutoff h fuel false (g.result s a) al beta (d + 1)).1)
        beta (g.actions s) EV.negInf none alpha := by
  simp [ab, hterm, hcut]

theorem ab_succ_min (g : TicTacToe) (root : Mark)
    (cutoff : TicTacToe → Board → Nat → Bool) (h : Board → Mark → Int)
    (fuel : Nat) (s : Board) (alpha beta : EV) (d : Nat)
    (hterm : ¬ (g.is_terminal s = true)) (hcut : cutoff g s d = false) :
    ab g root cutoff h (fuel + 1) false s alpha beta d =
      abLoopMin
        (fun a be => (ab g root cutoff h fuel true (g.result s a) alpha be (d + 1)).1)
        alpha (g.actions s) EV.posInf none beta := by
  simp [ab, hterm, hcut]

theorem ab_mm_bounds (g : TicTacToe) (root : Mark)
    (cutoff : TicTacToe → Board → Nat → Bool) (h : Board → Mark → Int) :
    ∀ (fuel : Nat) (maxing : Bool) (s : Board) (alpha beta : EV) (d : Nat),
      (∀ (u : Board) (e : Nat), StepsTo g e s u → g.is_terminal u = false →
        cutoff g u (d + e) = false) →
      g.freeCount s < fuel → alpha < beta →
      (((ab g root cutoff h fuel maxing s alpha beta d).1 ≤ alpha →
          (mm g root fuel maxing s).1 ≤
            (ab g root cutoff h fuel maxing s alpha beta d).1) ∧
       (beta ≤ (ab g root cutoff h fuel maxing s alpha beta d).1 →
          (ab g root cutoff h fuel maxing s alpha beta d).1 ≤
            (mm g root fuel maxing s).1) ∧
       (alpha < (ab g root cutoff h fuel maxing s alpha beta d).1 →
          (ab g root cutoff h fuel maxing s alpha beta d).1 < beta →
          (ab g root cutoff h fuel maxing s alpha beta d).1 =
            (mm g root fuel maxing s).1)) := by
  intro fuel
  induction fuel with
  | zero =>
      intro _ _ _ _ _ _ hf _
      omega
  | succ fuel ih =>
      intro maxing s alpha beta d Hcut hf hab
      by_cases hterm : g.is_terminal s
      · rw [ab_terminal g root cutoff h fuel maxing s alpha beta d hterm,
          mm_terminal g root fuel maxing s hterm]
        exact ⟨fun _ => le_refl _, fun _ => le_refl _, fun _ _ => rfl⟩
      · have htermf : g.is_terminal s = false := by
          revert hterm
          cases g.is_terminal s <;> simp
        have hcut : cutoff g s d = false := by
          have hq := Hcut s 0 rfl htermf
          rwa [Nat.add_zero] at hq
        have Hchild : ∀ (a : Coord), a ∈ g.actions s →
            ∀ (u : Board) (e : Nat), StepsTo g e (g.result s a) u →
              g.is_terminal u = false → cutoff g u (d + 1 + e) = false := by
          intro a ha u e hst hterm'
          have hq := Hcut u (e + 1) ⟨a, ha, hst⟩ hterm'
          have harith : d + (e + 1) = d + 1 + e := by omega
          rwa [harith] at hq
        cases maxing
        · rw [ab_succ_min g root cutoff h fuel s alpha beta d hterm hcut,
            mm_succ_min g root fuel s hterm]
          have hmm := mmLoopMin_fst (fun a => (mm g root fuel true (g.result s a)).1)
            (g.actions s) EV.posInf none
          have hspec := abLoopMin_spec
            (fun a be => (ab g root cutoff h fuel true (g.result s a) alpha be (d + 1)).1)
            (fun a => (mm g root fuel true (g.result s a)).1)
            alpha beta hab (g.actions s) EV.posInf none beta
            (by rw [EV.pymin_eq_min]; exact (min_eq_left (EV.le_posInf beta)).symm)
            (lt_of_lt_of_le hab (EV.le_posInf beta))
            (by
              intro a ha be hbe
              exact ih true (g.result s a) alpha be (d + 1) (Hchild a ha)
                (by have := freeCount_result ha; omega) hbe)
          refine ⟨fun hra => ?_, fun hrb => ?_, fun hra hrb => ?_⟩
          · rw [hmm]
            exact hspec.2.1 hra
          · rw [hmm]
            exact hspec.1 hrb
          · rw [hmm]
            exact hspec.2.2 hra hrb
        · rw [ab_succ_max g root cutoff h fuel s alpha beta d hterm hcut,
            mm_succ_max g root fuel s hterm]
          have hmm := mmLoopMax_fst (fun a => (mm g root fuel false (g.result s a)).1)
            (g.actions s) EV.negInf none
          have hspec := abLoopMax_spec
            (fun a al => (ab g root cutoff h fuel false (g.result s a) al beta (d + 1)).1)
            (fun a => (mm g root fuel false (g.result s a)).1)
            beta alpha hab (g.actions s) EV.negInf none alpha
            (by rw [EV.pymax_eq_max]; exact (max_eq_left (EV.negInf_le alpha)).symm)
            (lt_of_le_of_lt (EV.negInf_le alpha) hab)
            (by
              intro a ha al hal
              exact ih false (g.result s a) al beta (d + 1) (Hchild a ha)
                (by have := freeCount_result ha; omega) hal)
          refine ⟨fun hra => ?_, fun hrb => ?_, fun hra hrb => ?_⟩
          · rw [hmm]
            exact hspec.1 hra
          · rw [hmm]
            exact hspec.2.1 hrb
          · rw [hmm]
            exact hspec.2.2 hra hrb

theorem abLoopMax_congr (cv1 cv2 : Coord → EV → EV) (beta : EV) :
    ∀ (l : List Coord) (v : EV) (m : Option Coord) (alpha : EV),
      (∀ a ∈ l, ∀ al : EV, cv1 a al = cv2 a al) →
      abLoopMax cv1 beta l v m alpha = abLoopMax cv2 beta l v m alpha := by
  intro l
  induction l with
  | nil =>
      intro _ _ _ _
      rfl
  | cons a as ih =>
      intro v m alpha hcv
      have hq := hcv a (List.mem_cons_self a as) alpha
      simp only [abLoopMax]
      rw [hq]
      split_ifs with h1 h2
      · rfl
      · exact ih _ _ _ fun x hx => hcv x (List.mem_cons_of_mem _ hx)
      · rfl
      · exact ih _ _ _ fun x hx => hcv x (List.mem_cons_of_mem _ hx)

theorem abLoopMin_congr (cv1 cv2 : Coord → EV → EV) (alpha : EV) :
    ∀ (l : List Coord) (v : EV) (m : Option Coord) (beta : EV),
      (∀ a ∈ l, ∀ be : EV, cv1 a be = cv2 a be) →
      abLoopMin cv1 alpha l v m beta = abLoopMin cv2 alpha l v m beta := by
  intro l
  induction l with
  | nil =>
      intro _ _ _ _
      rfl
  | cons a as ih =>
      intro v m beta hcv
      have hq := hcv a (List.mem_cons_self a as) beta
      simp only [abLoopMin]
      rw [hq]
      split_ifs with h1 h2
      · rfl
      · exact ih _ _ _ fun x hx => hcv x (List.mem_cons_of_mem _ hx)
      · rfl
      · exact ih _ _ _ fun x hx => hcv x (List.mem_cons_of_mem _ hx)

theorem ab_h_congr (g : TicTacToe) (root : Mark)
    (cutoff : TicTacToe → Board → Nat → Bool) (h1 h2 : Board → Mark → Int) :
    ∀ (fuel : Nat) (maxing : Bool) (s : Board) (alpha beta : EV) (d : Nat),
      (∀ (u : Board) (e : Nat), StepsTo g e s u → g.is_terminal u = false →
        cutoff g u (d + e) = false) →
      ab g root cutoff h1 fuel maxing s alpha beta d =
        ab g root cutoff h2 fuel maxing s alpha beta d := by
  intro fuel
  induction fuel with
  | zero =>
      intro _ _ _ _ _ _
      rfl
  | succ fuel ih =>
      intro maxing s alpha beta d Hcut
      by_cases hterm : g.is_terminal s
      · rw [ab_terminal g root cutoff h1 fuel maxing s alpha beta d hterm,
          ab_terminal g root cutoff h2 fuel maxing s alpha beta d hterm]
      · have htermf : g.is_terminal s = false := by
          revert hterm
          cases g.is_terminal s <;> simp
        have hcut : cutoff g s d = false := by
          have hq := Hcut s 0 rfl htermf
          rwa [Nat.add_zero] at hq
        have Hchild : ∀ (a : Coord), a ∈ g.actions s →
            ∀ (u : Board) (e : Nat), StepsTo g e (g.result s a) u →
              g.is_terminal u = false → cutoff g u (d + 1 + e) = false := by
          intro a ha u e hst hterm'
          have hq := Hcut u (e + 1) ⟨a, ha, hst⟩ hterm'
          have harith : d + (e + 1) = d + 1 + e := by omega
          rwa [harith] at hq
        cases maxing
        · rw [ab_succ_min g root cutoff h1 fuel s alpha beta d hterm hcut,
            ab_succ_min g root cutoff h2 fuel s alpha beta d hterm hcut]
          apply abLoopMin_congr
          intro a ha be
          rw [ih true (g.result s a) alpha be (d + 1) (Hchild a ha)]
        · rw [ab_succ_max g root cutoff h1 fuel s alpha beta d hterm hcut,
            ab_succ_max g root cutoff h2 fuel s alpha beta d hterm hcut]
          apply abLoopMax_congr
          intro a ha al
          rw [ih false (g.result s a) al beta (d + 1) (Hchild a ha)]

theorem stepsTo_reachable {g : TicTacToe} :
    ∀ {e : Nat} {s u : Board}, Reachable g s → StepsTo g e s u → Reachable g u := by
  intro e
  induction e with
  | zero =>
      intro s u hr hst
      have hq : u = s := hst
      rw [hq]
      exact hr
  | succ e ih =>
      intro s u hr hst
      obtain ⟨a, ha, hst'⟩ := hst
      exact ih (Reachable.step hr ha) hst'

theorem stepsTo_freeCount {g : TicTacToe} :
    ∀ {e : Nat} {s u : Board}, StepsTo g e s u →
      g.freeCount u + e = g.freeCount s := by
  intro e
  induction e with
  | zero =>
      intro s u hst
      have hq : u = s := hst
      rw [hq]
      omega
  | succ e ih =>
      intro s u hst
      obtain ⟨a, ha, hst'⟩ := hst
      have h1 := ih hst'
      have h2 := freeCount_result ha
      omega

theorem cutoff_depth_covered (g : TicTacToe) (s : Board) (hreach : Reachable g s)
    (D : Nat) (hD : g.freeCount s ≤ D) :
    ∀ (u : Board) (e : Nat), StepsTo g e s u → g.is_terminal u = false →
      cutoff_depth D g u e = false := by
  intro u e hst hterm
  have hru : Reachable g u := stepsTo_reachable hreach hst
  have hfc := stepsTo_freeCount hst
  have hne : g.actions u ≠ [] :=
    actions_ne_nil_of_not_terminal hru (by simp [hterm])
  have hpos : 0 < g.freeCount u := by
    unfold TicTacToe.freeCount
    exact List.length_pos.mpr hne
  show decide (D < e) = false
  rw [decide_eq_false_iff_not]
  omega

/-- C1: for every reachable state `s`, running `h_alphabeta_search` with a
cutoff predicate that never fires at a node the search can visit from `s`
(a board reached by legal moves, at its visit depth) before that node is
terminal returns the same value component as `minimax_search_tt`, and the
heuristic `h` is never consulted: the whole search result is independent of
`h`; moreover every depth cutoff `cutoff_depth D` with `D` at least the
number of remaining plies `freeCount s` is such a cutoff predicate. -/
theorem C1_alphabeta_equals_minimax (g : TicTacToe) (s : Board)
    (cutoff : TicTacToe → Board → Nat → Bool) (h : Board → Mark → Int)
    (hreach : Reachable g s)
    (Hcut : ∀ (u : Board) (e : Nat), StepsTo g e s u → g.is_terminal u = false →
      cutoff g u e = false) :
    ((h_alphabeta_search g s cutoff h).1 = (minimax_search_tt g s).1 ∧
      ∀ h1 h2 : Board → Mark → Int,
        h_alphabeta_search g s cutoff h1 = h_alphabeta_search g s cutoff h2) ∧
      ∀ D : Nat, g.freeCount s ≤ D →
        ∀ (u : Board) (e : Nat), StepsTo g e s u → g.is_terminal u = false →
          cutoff_depth D g u e = false := by
  have Hcut0 : ∀ (u : Board) (e : Nat), StepsTo g e s u → g.is_terminal u = false →
      cutoff g u (0 + e) = false := by
    intro u e hst hterm
    rw [Nat.zero_add]
    exact Hcut u e hst hterm
  refine ⟨⟨?_, ?_⟩, ?_⟩
  · obtain ⟨P1, P2, P3⟩ := ab_mm_bounds g s.to_move cutoff h (g.freeCount s + 1)
      true s EV.negInf EV.posInf 0 Hcut0 (by omega) (by simp)
    show (ab g s.to_move cutoff h (g.freeCount s + 1) true s EV.negInf EV.posInf 0).1 =
      (mm g s.to_move (g.freeCount s + 1) true s).1
    by_cases hlo :
      (ab g s.to_move cutoff h (g.freeCount s + 1) true s EV.negInf EV.posInf 0).1 ≤
        EV.negInf
    · have hr := (EV.le_negInf_iff _).mp hlo
      have ht := P1 hlo
      rw [hr] at ht ⊢
      exact ((EV.le_negInf_iff _).mp ht).symm
    · by_cases hhi : EV.posInf ≤
        (ab g s.to_move cutoff h (g.freeCount s + 1) true s EV.negInf EV.posInf 0).1
      · have hr := (EV.posInf_le_iff _).mp hhi
        have ht := P2 hhi
        rw [hr] at ht ⊢
        exact ((EV.posInf_le_iff _).mp ht).symm
      · exact P3 (not_le.mp hlo) (not_le.mp hhi)
  · intro h1 h2
    exact ab_h_congr g s.to_move cutoff h1 h2 (g.freeCount s + 1) true s
      EV.negInf EV.posInf 0 Hcut0
  · intro D hD
    exact cutoff_depth_covered g s hreach D hD

/-- C1 witness on the concrete 2×2 game at the initial board, with the depth
cutoff at the full remaining-ply count (`cutoff_depth 4`, 4 plies left). -/
theorem C1_witness :
    (h_alphabeta_search game2 game2.initial (cutoff_depth 4) hZero).1 =
      (minimax_search_tt game2 game2.initial).1 :=
  (C1_alphabeta_equals_minimax game2 game2.initial (cutoff_depth 4) hZero
    Reachable.init
    (cutoff_depth_covered game2 game2.initial Reachable.init 4 (by decide))).1.1

theorem state_from_hash_insert (reg : Registry) (s : Board) :
    state_from_hash ((s.hashKey, s) :: reg) s.hashKey = some s := by
  unfold state_from_hash
  rw [List.find?_cons_of_pos _ (by simp)]
  rfl

theorem mmrLoop_sim (g : TicTacToe) (root : Mark) (fuel : Nat) (maxing : Bool)
    (s : Board)
    (hnext : ∀ (child : Board) (reg : Registry), g.freeCount child < fuel →
      ∃ reg' : Registry,
        mmr g root fuel (!maxing) ((child.hashKey, child) :: reg) child.hashKey =
          some (mm g root fuel (!maxing) child, reg')) :
    ∀ (l : List Coord) (v : EV) (m : Option Coord) (reg : Registry),
      (∀ a ∈ l, g.freeCount (g.result s a) < fuel) →
      ∃ reg' : Registry,
        mmrLoop g s maxing (mmr g root fuel (!maxing)) l v m reg =
          some ((if maxing then
              mmLoopMax (fun a => (mm g root fuel (!maxing) (g.result s a)).1) l v m
            else
              mmLoopMin (fun a => (mm g root fuel (!maxing) (g.result s a)).1) l v m),
            reg') := by
  intro l
  induction l with
  | nil =>
      intro v m reg _
      refine ⟨reg, ?_⟩
      cases maxing <;> rfl
  | cons a as ih =>
      intro v m reg hl
      obtain ⟨reg1, hnext1⟩ := hnext (g.result s a) reg (hl a (List.mem_cons_self a as))
      rcases hmm : mm g root fuel (!maxing) (g.result s a) with ⟨v2, m2⟩
      rw [hmm] at hnext1
      have hrest := fun v' m' reg' =>
        ih v' m' reg' fun x hx => hl x (List.mem_cons_of_mem _ hx)
      cases maxing
      · simp only [Bool.not_false] at hnext1 hmm hrest ⊢
        simp only [mmrLoop, hash_state]
        rw [hnext1]
        simp only [Bool.false_eq_true, if_false]
        by_cases hcmp : v2 < v
        · obtain ⟨reg', hreg'⟩ := hrest v2 (some a) reg1
          refine ⟨reg', ?_⟩
          rw [if_pos hcmp, hreg']
          simp only [Bool.false_eq_true, if_false, mmLoopMin, hmm]
          rw [if_pos hcmp]
        · obtain ⟨reg', hreg'⟩ := hrest v m reg1
          refine ⟨reg', ?_⟩
          rw [if_neg hcmp, hreg']
          simp only [Bool.false_eq_true, if_false, mmLoopMin, hmm]
          rw [if_neg hcmp]
      · simp only [Bool.not_true] at hnext1 hmm hrest ⊢
        simp only [mmrLoop, hash_state]
        rw [hnext1]
        simp only [if_true]
        by_cases hcmp : v < v2
        · obtain ⟨reg', hreg'⟩ := hrest v2 (some a) reg1
          refine ⟨reg', ?_⟩
          rw [if_pos hcmp, hreg']
          simp only [if_true, mmLoopMax, hmm]
          rw [if_pos hcmp]
        · obtain ⟨reg', hreg'⟩ := hrest v m reg1
          refine ⟨reg', ?_⟩
          rw [if_neg hcmp, hreg']
          simp only [if_true, mmLoopMax, hmm]
          rw [if_neg hcmp]

theorem mmr_sim (g : TicTacToe) (root : Mark) :
    ∀ (fuel : Nat) (maxing : Bool) (s : Board) (reg : Registry),
      g.freeCount s < fuel →
      ∃ reg' : Registry,
        mmr g root fuel maxing ((s.hashKey, s) :: reg) s.hashKey =
          some (mm g root fuel maxing s, reg') := by
  intro fuel
  induction fuel with
  | zero =>
      intro _ _ _ h
      omega
  | succ fuel ih =>
      intro maxing s reg hf
      by_cases hterm : g.is_terminal s
      · refine ⟨(s.hashKey, s) :: reg, ?_⟩
        simp only [mmr, state_from_hash_insert]
        rw [mm_terminal g root fuel maxing s hterm]
        simp [hterm]
      · have hnext : ∀ (child : Board) (reg0 : Registry), g.freeCount child < fuel →
            ∃ reg' : Registry,
              mmr g root fuel (!maxing) ((child.hashKey, child) :: reg0) child.hashKey =
                some (mm g root fuel (!maxing) child, reg') :=
          fun child reg0 hc => ih (!maxing) child reg0 hc
        have hl : ∀ a ∈ g.actions s, g.freeCount (g.result s a) < fuel := by
          intro a ha
          have := freeCount_result ha
          omega
        obtain ⟨reg', hloop⟩ := mmrLoop_sim g root fuel maxing s hnext (g.actions s)
          (if maxing then EV.negInf else EV.posInf) none ((s.hashKey, s) :: reg) hl
        refine ⟨reg', ?_⟩
        simp only [mmr, state_from_hash_insert]
        rw [if_neg hterm]
        rw [hloop]
        cases maxing
        · rw [mm_succ_min g root fuel s hterm]
          simp
        · rw [mm_succ_max g root fuel s hterm]
          simp

/-- C9: within a single `minimax_search_tt` call, every `state_from_hash`
lookup is preceded by the `hash_state` store of the same key, so the
registry-miss branch (`KeyError`) is unreachable: for every state and every
pre-existing registry, the registry-threaded search returns a result (never
the miss outcome), and its value/move pair is the one the plain search
computes. -/
theorem C9_registry_miss_unreachable (g : TicTacToe) (s : Board) (reg : Registry) :
    ∃ reg' : Registry,
      minimax_search_tt_reg g s reg = some (minimax_search_tt g s, reg') := by
  obtain ⟨reg', hsim⟩ := mmr_sim g s.to_move (g.freeCount s + 1) true s reg (by omega)
  exact ⟨reg', hsim⟩

/-- C4: at a non-terminal node where the cutoff fires, `h_alphabeta_search`'s
recursion returns `(h(state, root), no move)` without touching the children;
inside the loops, sibling examination stops exactly when the just-updated
best value `v` satisfies `v >= beta` (maximize) or `v <= alpha` (minimize),
and otherwise continues; and the returned value can lie strictly outside the
original `[alpha, beta]` window (fail-soft), as on the concrete 2×1 game
where the window `[-5, 0]` yields the value `1`. -/
theorem C4_cutoff_and_failsoft_pruning :
    (∀ (g : TicTacToe) (root : Mark) (cutoff : TicTacToe → Board → Nat → Bool)
        (h : Board → Mark → Int) (fuel : Nat) (maxing : Bool) (s : Board)
        (alpha beta : EV) (d : Nat),
        ¬ (g.is_terminal s = true) → cutoff g s d = true →
        ab g root cutoff h (fuel + 1) maxing s alpha beta d =
          (EV.fin (h s root), none)) ∧
    (∀ (cv : Coord → EV → EV) (beta : EV) (a : Coord) (as : List Coord)
        (v : EV) (m : Option Coord) (alpha : EV),
        (v < cv a alpha → beta ≤ cv a alpha →
          abLoopMax cv beta (a :: as) v m alpha = (cv a alpha, some a)) ∧
        (v < cv a alpha → ¬ beta ≤ cv a alpha →
          abLoopMax cv beta (a :: as) v m alpha =
            abLoopMax cv beta as (cv a alpha) (some a) (EV.pymax alpha (cv a alpha))) ∧
        (¬ v < cv a alpha → beta ≤ v →
          abLoopMax cv beta (a :: as) v m alpha = (v, m)) ∧
        (¬ v < cv a alpha → ¬ beta ≤ v →
          abLoopMax cv beta (a :: as) v m alpha = abLoopMax cv beta as v m alpha)) ∧
    (∀ (cv : Coord → EV → EV) (alpha : EV) (a : Coord) (as : List Coord)
        (v : EV) (m : Option Coord) (beta : EV),
        (cv a beta < v → cv a beta ≤ alpha →
          abLoopMin cv alpha (a :: as) v m beta = (cv a beta, some a)) ∧
        (cv a beta < v → ¬ cv a beta ≤ alpha →
          abLoopMin cv alpha (a :: as) v m beta =
            abLoopMin cv alpha as (cv a beta) (some a) (EV.pymin beta (cv a beta))) ∧
        (¬ cv a beta < v → v ≤ alpha →
          abLoopMin cv alpha (a :: as) v m beta = (v, m)) ∧
        (¬ cv a beta < v → ¬ v ≤ alpha →
          abLoopMin cv alpha (a :: as) v m beta = abLoopMin cv alpha as v m beta)) ∧
    (ab game21 Mark.X cutoffNever hZero (game21.freeCount game21.initial + 1) true
        game21.initial (EV.fin (-5)) (EV.fin 0) 0 = (EV.fin 1, some (0, 0)) ∧
      EV.fin 0 <
        (ab game21 Mark.X cutoffNever hZero (game21.freeCount game21.initial + 1) true
          game21.initial (EV.fin (-5)) (EV.fin 0) 0).1) := by
  refine ⟨?_, ?_, ?_, by decide, by decide⟩
  · intro g root cutoff h fuel maxing s alpha beta d hterm hcut
    exact ab_cutoff g root cutoff h fuel maxing s alpha beta d hterm hcut
  · intro cv beta a as v m alpha
    refine ⟨fun h1 h2 => ?_, fun h1 h2 => ?_, fun h1 h2 => ?_, fun h1 h2 => ?_⟩
    · simp only [abLoopMax]
      rw [if_pos h1, if_pos h2]
    · simp only [abLoopMax]
      rw [if_pos h1, if_neg h2]
    · simp only [abLoopMax]
      rw [if_neg h1, if_pos h2]
    · simp only [abLoopMax]
      rw [if_neg h1, if_neg h2]
  · intro cv alpha a as v m beta
    refine ⟨fun h1 h2 => ?_, fun h1 h2 => ?_, fun h1 h2 => ?_, fun h1 h2 => ?_⟩
    · simp only [abLoopMin]
      rw [if_pos h1, if_pos h2]
    · simp only [abLoopMin]
      rw [if_pos h1, if_neg h2]
    · simp only [abLoopMin]
      rw [if_neg h1, if_pos h2]
    · simp only [abLoopMin]
      rw [if_neg h1, if_neg h2]

/-- C4 witness: an always-firing cutoff on a non-terminal node returns the
heuristic leaf `(7, no move)` directly. -/
theorem C4_witness :
    ab game2 Mark.X cutoffAlways hSeven (0 + 1) true game2.initial
      EV.negInf EV.posInf 0 = (EV.fin (hSeven game2.initial Mark.X), none) :=
  C4_cutoff_and_failsoft_pruning.1 game2 Mark.X cutoffAlways hSeven 0 true
    game2.initial EV.negInf EV.posInf 0 (by decide) rfl
